import Mathlib

/-!
Verification of the GenFeatures streaming UI generator.

This file embeds, in Lean, the core of the single-page application found in
the repository source (the `App` component): the stream JSON extractor
`parseJsonStream`, the session/artifact state-update functions used by
`handleSendMessage` / `generateArtifact` / `applyVariation` /
`handleSaveArtifact` / `handleRestoreFromVault` / `handleGoHome`, and the
navigation functions `nextItem` / `prevItem`.

Modelling conventions:
* JavaScript strings are modelled as `List Char` (`Str`).
* JSON values are modelled by the inductive `Json`; JSON numbers are
  restricted to integers (floating point is out of scope), and string
  escapes are restricted to `\"` and `\\`, the ones the canonical
  serializer emits.
* `JSON.parse` is modelled by the recursive-descent parser `jsonParse`;
  `JSON.stringify`-style canonical serialization by `ser`.
* React `setState` updates written as pure functions of the previous state
  are embedded directly as pure functions on the state.
-/

/-- JavaScript strings are modelled as lists of characters. -/
abbrev Str := List Char

/-- Convert a Lean string literal to the model type. -/
def strL (s : String) : Str := s.data

/-- The character with code 123, an opening curly brace. -/
def lbrace : Char := Char.ofNat 123

/-- The character with code 125, a closing curly brace. -/
def rbrace : Char := Char.ofNat 125

/-- The character with code 96, a backtick. -/
def btick : Char := Char.ofNat 96

/-- Whitespace test modelling the JavaScript notion used by `trim` and by
`JSON.parse` (space, tab, newline, carriage return). -/
def isWsC (c : Char) : Bool := c = ' ' || c = '\t' || c = '\n' || c = '\r'

/-- Decimal digit test on character codes 48 to 57. -/
def isDigitC (c : Char) : Bool := 48 ≤ c.toNat && c.toNat ≤ 57

/-- The character for the decimal digit `d`. -/
def digitChar (d : Nat) : Char := Char.ofNat (48 + d)

/-- Prefix relation on character lists (JavaScript `startsWith` shape). -/
def pre (a b : Str) : Prop := ∃ t, a ++ t = b

/-- Concatenation of a list of strings. -/
def sconcat : List Str → Str
  | [] => []
  | c :: t => c ++ sconcat t

/-- JavaScript `indexOf(c, start)`: index of the first occurrence of `c` at
or after position `start`, if any. -/
def indexOfFrom (s : Str) (c : Char) (start : Nat) : Option Nat :=
  (List.findIdx? (fun x => x = c) (s.drop start)).map (· + start)

/-! ## JSON values

The values `JSON.parse` can return and `JSON.stringify` can consume, with
numbers restricted to integers. Arrays and object member lists are given by
the mutually defined `JArr` and `JObj` so that all recursions below are
plain structural recursions. -/

mutual

inductive Json where
  | null : Json
  | jbool (b : Bool) : Json
  | num (n : Int) : Json
  | str (s : Str) : Json
  | arr (elems : JArr) : Json
  | obj (membs : JObj) : Json
deriving DecidableEq

inductive JArr where
  | nil : JArr
  | cons (hd : Json) (tl : JArr) : JArr
deriving DecidableEq

inductive JObj where
  | nil : JObj
  | cons (k : Str) (v : Json) (tl : JObj) : JObj
deriving DecidableEq

end

/-- View a `JArr` as a Lean list of JSON values. -/
def jarrToList : JArr → List Json
  | .nil => []
  | .cons x t => x :: jarrToList t

/-! ## Canonical serialization (the shape `JSON.stringify` produces) -/

/-- Escape a string body: the serializer escapes exactly `"` and `\`. -/
def escape : Str → Str
  | [] => []
  | c :: r => if c = '"' ∨ c = '\\' then '\\' :: c :: escape r else c :: escape r

/-- Serialize a string literal, quotes included. -/
def serStr (s : Str) : Str := '"' :: escape s ++ ['"']

/-- Decimal digits of a natural number, fuel-indexed so that the recursion
is structural; `natDigits` supplies sufficient fuel. -/
def natDigitsF : Nat → Nat → Str
  | 0, _ => []
  | f + 1, n => if n < 10 then [digitChar n] else natDigitsF f (n / 10) ++ [digitChar (n % 10)]

/-- Decimal digits of a natural number. -/
def natDigits (n : Nat) : Str := natDigitsF (n + 1) n

/-- Serialize an integer. -/
def serNum (n : Int) : Str := if n < 0 then '-' :: natDigits n.natAbs else natDigits n.toNat

mutual

/-- Canonical JSON serialization of a value. -/
def ser : Json → Str
  | .null => ['n', 'u', 'l', 'l']
  | .jbool true => ['t', 'r', 'u', 'e']
  | .jbool false => ['f', 'a', 'l', 's', 'e']
  | .num n => serNum n
  | .str s => serStr s
  | .arr .nil => ['[', ']']
  | .arr (.cons x t) => '[' :: (ser x ++ serArrTail t) ++ [']']
  | .obj .nil => [lbrace, rbrace]
  | .obj (.cons k v t) => lbrace :: (serStr k ++ ':' :: ser v ++ serObjTail t) ++ [rbrace]

/-- Comma-separated serialization of the tail of a nonempty array. -/
def serArrTail : JArr → Str
  | .nil => []
  | .cons x t => ',' :: ser x ++ serArrTail t

/-- Comma-separated serialization of the tail of a nonempty member list. -/
def serObjTail : JObj → Str
  | .nil => []
  | .cons k v t => ',' :: serStr k ++ ':' :: ser v ++ serObjTail t

end

/-! ## A model of `JSON.parse`

A fuel-indexed recursive-descent parser. `jsonParse` supplies fuel
sufficient for any input (one unit per nesting level, bounded by the input
length). -/

/-- Drop leading whitespace. -/
def skipWs (s : Str) : Str := s.dropWhile isWsC

/-- Parse a string body after the opening quote, handling the `\"` and `\\`
escapes; returns the decoded body and the rest after the closing quote. -/
def pStrBody : Str → Option (Str × Str)
  | [] => none
  | c :: r =>
    if c = '"' then some ([], r)
    else if c = '\\' then
      match r with
      | [] => none
      | e :: r2 =>
        if e = '"' ∨ e = '\\' then (pStrBody r2).map (fun p => (e :: p.1, p.2)) else none
    else (pStrBody r).map (fun p => (c :: p.1, p.2))

/-- Numeric value of a digit string (most significant first). -/
def digitsVal (l : Str) (acc : Nat) : Nat := l.foldl (fun a c => 10 * a + (c.toNat - 48)) acc

/-- Parse a nonempty run of decimal digits. -/
def pDigits (s : Str) : Option (Nat × Str) :=
  let ds := s.takeWhile isDigitC
  if ds = [] then none else some (digitsVal ds 0, s.dropWhile isDigitC)

mutual

/-- Parse one JSON value, returning it and the unconsumed rest. -/
def pVal : Nat → Str → Option (Json × Str)
  | 0, _ => none
  | f + 1, s =>
    match skipWs s with
    | [] => none
    | c :: r =>
      if c = 'n' then
        match r with
        | 'u' :: 'l' :: 'l' :: r2 => some (.null, r2)
        | _ => none
      else if c = 't' then
        match r with
        | 'r' :: 'u' :: 'e' :: r2 => some (.jbool true, r2)
        | _ => none
      else if c = 'f' then
        match r with
        | 'a' :: 'l' :: 's' :: 'e' :: r2 => some (.jbool false, r2)
        | _ => none
      else if c = '"' then (pStrBody r).map (fun p => (.str p.1, p.2))
      else if c = '-' then (pDigits r).map (fun p => (.num (-(p.1 : Int)), p.2))
      else if c = '[' then
        match skipWs r with
        | ']' :: r2 => some (.arr .nil, r2)
        | _ => (pElems f r).map (fun p => (.arr p.1, p.2))
      else if c = lbrace then
        match skipWs r with
        | b :: r2 => if b = rbrace then some (.obj .nil, r2)
                     else (pMembs f r).map (fun p => (.obj p.1, p.2))
        | [] => (pMembs f r).map (fun p => (.obj p.1, p.2))
      else if isDigitC c then (pDigits (c :: r)).map (fun p => (.num (p.1 : Int), p.2))
      else none

/-- Parse the elements of a nonempty array up to and including the closing
bracket. -/
def pElems : Nat → Str → Option (JArr × Str)
  | 0, _ => none
  | f + 1, s =>
    match pVal f s with
    | none => none
    | some (v, r) =>
      match skipWs r with
      | ',' :: r2 => (pElems f r2).map (fun p => (.cons v p.1, p.2))
      | ']' :: r2 => some (.cons v .nil, r2)
      | _ => none

/-- Parse the members of a nonempty object up to and including the closing
brace. -/
def pMembs : Nat → Str → Option (JObj × Str)
  | 0, _ => none
  | f + 1, s =>
    match skipWs s with
    | '"' :: r =>
      match pStrBody r with
      | none => none
      | some (k, r1) =>
        match skipWs r1 with
        | ':' :: r2 =>
          match pVal f r2 with
          | none => none
          | some (v, r3) =>
            match skipWs r3 with
            | ',' :: r4 => (pMembs f r4).map (fun p => (.cons k v p.1, p.2))
            | b :: r4 => if b = rbrace then some (.cons k v .nil, r4) else none
            | [] => none
        | _ => none
    | _ => none

end

/-- The model of `JSON.parse`: parse one value and require that nothing but
whitespace remains; `none` models a thrown `SyntaxError`. -/
def jsonParse (s : Str) : Option Json :=
  match pVal (s.length + 1) s with
  | some (v, rest) => if skipWs rest = [] then some v else none
  | none => none

/-! ## The stream JSON extractor (`parseJsonStream` in the source)

The source keeps one growing text buffer. Per fragment it appends the text,
then repeatedly: finds the first open brace at or after the current search
position, scans forward counting brace depth, and when the depth returns to
zero tries `JSON.parse` on the candidate span. On success the value is
emitted and the consumed span (and everything before it) removed; on parse
failure the search restarts just past the candidate's opening brace. -/

/-- Brace-depth scanning loop: `cnt` is the depth so far, `i` the index of
the next character; returns the index at which the depth first returns to
zero. Mirrors the `for` loop of the source (the opening position itself is
never accepted because the source requires `i > start`). -/
def findEndAux : Str → Int → Nat → Option Nat
  | [], _, _ => none
  | c :: rest, cnt, i =>
    let cnt2 := if c = lbrace then cnt + 1 else if c = rbrace then cnt - 1 else cnt
    if cnt2 = 0 then some i else findEndAux rest cnt2 (i + 1)

/-- Find the index `end > start` at which brace depth returns to zero when
scanning from `start`. Direct embedding of the scanning loop in
`parseJsonStream`. -/
def findEnd (buf : Str) (start : Nat) : Option Nat :=
  match buf.drop start with
  | [] => none
  | c :: rest =>
    let cnt1 : Int := if c = lbrace then 1 else if c = rbrace then -1 else 0
    findEndAux rest cnt1 (start + 1)

/-- The extraction loop of `parseJsonStream`, fuel-indexed so the recursion
is structural. Every iteration either consumes part of the buffer or moves
the search position right, so `(length + 1)^2` fuel (supplied by
`extractChunk`) strictly dominates the number of iterations the source's
`while` loop can perform. -/
def extractLoopF : Nat → Str → Nat → List Json × Str
  | 0, buf, _ => ([], buf)
  | f + 1, buf, start =>
    match indexOfFrom buf lbrace start with
    | none => ([], buf)
    | some s =>
      match findEnd buf s with
      | none => ([], buf)
      | some e =>
        let jsonString := (buf.drop s).take (e + 1 - s)
        match jsonParse jsonString with
        | some v =>
          let r := extractLoopF f (buf.drop (e + 1)) 0
          (v :: r.1, r.2)
        | none => extractLoopF f buf (s + 1)

/-- Run the extraction loop on the current buffer from position zero: the
per-fragment body of `parseJsonStream`, returning the emitted values and
the remaining buffer. -/
def extractChunk (buf : Str) : List Json × Str :=
  extractLoopF ((buf.length + 1) * (buf.length + 1)) buf 0

/-- Process one incoming fragment: a fragment whose `text` is not a string
is skipped (`typeof text !== 'string'`), otherwise the text is appended to
the buffer and the extraction loop is run. -/
def feed (acc : List Json × Str) (frag : Option Str) : List Json × Str :=
  match frag with
  | none => acc
  | some t =>
    let r := extractChunk (acc.2 ++ t)
    (acc.1 ++ r.1, r.2)

/-- The stream JSON extractor: all values emitted over a whole fragment
sequence, in order. When the sequence ends, the leftover buffer is
discarded. -/
def parseJsonStream (frags : List (Option Str)) : List Json :=
  (frags.foldl feed ([], [])).1

/-- Emissions after only the first `k` fragments have arrived. -/
def prefixEmissions (frags : List (Option Str)) (k : Nat) : List Json :=
  ((frags.take k).foldl feed ([], [])).1

/-- The concatenated text of a fragment sequence (skipped fragments
contribute nothing). -/
def textOf (frags : List (Option Str)) : Str :=
  sconcat (frags.map (fun f => f.getD []))

/-- Serialization of a sequence of values, concatenated. -/
def concatSer (os : List Json) : Str := sconcat (os.map ser)

/-- How many of the values in `os`, taken in order, have their full
serialization contained in the first `n` characters of `concatSer os`. -/
def countComplete (os : List Json) (n : Nat) : Nat :=
  match os with
  | [] => 0
  | o :: os' => if (ser o).length ≤ n then countComplete os' (n - (ser o).length) + 1 else 0

/-! ## Roundtrip: the parser recovers what the serializer produced -/

theorem digitChar_isDigit (d : Nat) (h : d < 10) : isDigitC (digitChar d) = true := by
  interval_cases d <;> decide

theorem digitChar_toNat (d : Nat) (h : d < 10) : (digitChar d).toNat = 48 + d := by
  interval_cases d <;> decide

theorem digitsVal_append (l1 l2 : Str) (acc : Nat) :
    digitsVal (l1 ++ l2) acc = digitsVal l2 (digitsVal l1 acc) := by
  simp [digitsVal, List.foldl_append]

theorem natDigitsF_spec (f : Nat) : ∀ n, n < f →
    (∀ c ∈ natDigitsF f n, isDigitC c) ∧ natDigitsF f n ≠ [] ∧
    ∀ acc, digitsVal (natDigitsF f n) acc = acc * 10 ^ (natDigitsF f n).length + n := by
  induction f with
  | zero => intro n hn; omega
  | succ f ih =>
    intro n hn
    by_cases h10 : n < 10
    · refine ⟨?_, by simp [natDigitsF, h10], ?_⟩
      · intro c hc
        simp [natDigitsF, h10] at hc
        subst hc; exact digitChar_isDigit n h10
      · intro acc
        simp [natDigitsF, h10, digitsVal, digitChar_toNat n h10]
        omega
    · have hdiv : n / 10 < f := by
        have h1 : n / 10 < n := Nat.div_lt_self (by omega) (by omega)
        omega
      obtain ⟨ihd, ihne, ihv⟩ := ih (n / 10) hdiv
      have hrw : natDigitsF (f + 1) n = natDigitsF f (n / 10) ++ [digitChar (n % 10)] := by
        simp [natDigitsF, h10]
      refine ⟨?_, ?_, ?_⟩
      · intro c hc
        rw [hrw] at hc
        rcases List.mem_append.1 hc with h | h
        · exact ihd c h
        · simp at h; subst h; exact digitChar_isDigit _ (Nat.mod_lt _ (by omega))
      · rw [hrw]; simp
      · intro acc
        rw [hrw, digitsVal_append, ihv acc]
        have hm : (digitChar (n % 10)).toNat = 48 + n % 10 :=
          digitChar_toNat _ (Nat.mod_lt _ (by omega))
        simp [digitsVal, hm, List.length_append, pow_succ]
        have : acc * (10 ^ (natDigitsF f (n / 10)).length * 10) =
            (acc * 10 ^ (natDigitsF f (n / 10)).length) * 10 := by ring
        rw [this]
        omega

theorem natDigits_digits (n : Nat) : ∀ c ∈ natDigits n, isDigitC c :=
  (natDigitsF_spec (n + 1) n (by omega)).1

theorem natDigits_ne_nil (n : Nat) : natDigits n ≠ [] :=
  (natDigitsF_spec (n + 1) n (by omega)).2.1

theorem natDigits_val (n : Nat) : digitsVal (natDigits n) 0 = n := by
  have := (natDigitsF_spec (n + 1) n (by omega)).2.2 0
  simpa [natDigits] using this

/-- A continuation that cannot extend the token just parsed: empty, or
starting with a structural delimiter. -/
def Delim (rest : Str) : Prop :=
  rest = [] ∨ ∃ c t, rest = c :: t ∧ (c = ',' ∨ c = ']' ∨ c = rbrace)

theorem takeWhile_all_append (p : Char → Bool) (l1 l2 : Str)
    (h1 : ∀ c ∈ l1, p c)
    (h2 : ∀ c t, l2 = c :: t → ¬ p c) :
    (l1 ++ l2).takeWhile p = l1 ∧ (l1 ++ l2).dropWhile p = l2 := by
  induction l1 with
  | nil =>
    cases l2 with
    | nil => simp
    | cons c t =>
      have hpc : p c = false := by
        have := h2 c t rfl
        rwa [Bool.not_eq_true] at this
      constructor
      · simp [List.takeWhile, hpc]
      · simp [List.dropWhile, hpc]
  | cons a l1 ih =>
    have ha : p a := h1 a (by simp)
    have ihh := ih (fun c hc => h1 c (by simp [hc]))
    constructor
    · simp [List.takeWhile, ha, ihh.1]
    · simp [List.dropWhile, ha, ihh.2]

theorem pDigits_natDigits (m : Nat) (rest : Str) (hrest : Delim rest) :
    pDigits (natDigits m ++ rest) = some (m, rest) := by
  have h2 : ∀ c t, rest = c :: t → ¬ (isDigitC c = true) := by
    intro c t hct
    rcases hrest with h | ⟨c', t', hcons, hd⟩
    · rw [h] at hct; exact absurd hct (by simp)
    · rw [hcons] at hct
      injection hct with hc ht
      subst hc
      rcases hd with h | h | h <;> subst h <;> decide
  obtain ⟨htw, hdw⟩ := takeWhile_all_append isDigitC (natDigits m) rest (natDigits_digits m) h2
  simp [pDigits, htw, hdw, natDigits_ne_nil m, natDigits_val m]

theorem skipWs_cons (c : Char) (r : Str) (h : isWsC c = false) : skipWs (c :: r) = c :: r := by
  simp [skipWs, List.dropWhile_cons, h]

theorem pStrBody_cons_quote (rest : Str) : pStrBody ('"' :: rest) = some ([], rest) := by
  conv_lhs => rw [pStrBody.eq_def]
  simp

theorem pStrBody_cons_esc (rest : Str) (e : Char) (he : e = '"' ∨ e = '\\') :
    pStrBody ('\\' :: e :: rest) = (pStrBody rest).map (fun p => (e :: p.1, p.2)) := by
  conv_lhs => rw [pStrBody.eq_def]
  simp [he]

theorem pStrBody_cons_plain (rest : Str) (c : Char) (h1 : ¬ c = '"') (h2 : ¬ c = '\\') :
    pStrBody (c :: rest) = (pStrBody rest).map (fun p => (c :: p.1, p.2)) := by
  conv_lhs => rw [pStrBody.eq_def]
  simp [h1, h2]

theorem pStrBody_escape (s : Str) : ∀ rest, pStrBody (escape s ++ '"' :: rest) = some (s, rest) := by
  induction s with
  | nil => intro rest; simpa [escape] using pStrBody_cons_quote rest
  | cons c r ih =>
    intro rest
    by_cases hc : c = '"' ∨ c = '\\'
    · simp only [escape, hc, if_pos, List.cons_append]
      rw [pStrBody_cons_esc _ c hc, ih rest]
      rfl
    · push_neg at hc
      simp only [escape, hc.1, hc.2, or_self, if_neg, not_false_iff, List.cons_append]
      rw [pStrBody_cons_plain _ c hc.1 hc.2, ih rest]
      rfl

mutual

/-- Fuel sufficient for `pVal` to parse the serialization of a value. -/
def fuelOf : Json → Nat
  | .arr a => 1 + fuelElems a
  | .obj o => 1 + fuelMembs o
  | _ => 1

/-- Fuel sufficient for `pElems` on a serialized element list. -/
def fuelElems : JArr → Nat
  | .nil => 1
  | .cons x t => 1 + max (fuelOf x) (fuelElems t)

/-- Fuel sufficient for `pMembs` on a serialized member list. -/
def fuelMembs : JObj → Nat
  | .nil => 1
  | .cons _ v t => 1 + max (fuelOf v) (fuelMembs t)

end

theorem fuelOf_pos (v : Json) : 1 ≤ fuelOf v := by
  cases v <;> simp [fuelOf]

theorem isDigit_facts (c : Char) (h : isDigitC c = true) :
    isWsC c = false ∧ c ≠ 'n' ∧ c ≠ 't' ∧ c ≠ 'f' ∧ c ≠ '"' ∧ c ≠ '-' ∧ c ≠ '[' ∧
    c ≠ lbrace ∧ c ≠ ']' ∧ c ≠ rbrace ∧ c ≠ ',' ∧ c ≠ ':' := by
  refine ⟨?_, ?_, ?_, ?_, ?_, ?_, ?_, ?_, ?_, ?_, ?_, ?_⟩
  · cases hw : isWsC c with
    | false => rfl
    | true =>
      exfalso
      have := hw
      simp only [isWsC, Bool.or_eq_true, decide_eq_true_eq] at this
      rcases this with ((h1 | h1) | h1) | h1 <;> subst h1 <;> exact absurd h (by decide)
  all_goals (intro he; subst he; exact absurd h (by decide))

theorem delim_of_arrTail (t : JArr) (rest : Str) : Delim (serArrTail t ++ ']' :: rest) := by
  cases t with
  | nil => exact Or.inr ⟨']', rest, by simp [serArrTail], by simp⟩
  | cons y t' =>
    exact Or.inr ⟨',', ser y ++ serArrTail t' ++ ']' :: rest, by simp [serArrTail], by simp⟩

theorem delim_of_objTail (t : JObj) (rest : Str) : Delim (serObjTail t ++ rbrace :: rest) := by
  cases t with
  | nil => exact Or.inr ⟨rbrace, rest, by simp [serObjTail], by simp⟩
  | cons k' v' t' =>
    refine Or.inr ⟨',', serStr k' ++ ':' :: ser v' ++ serObjTail t' ++ rbrace :: rest, ?_, by simp⟩
    simp [serObjTail]

theorem ser_head (v : Json) : ∃ c r', ser v = c :: r' ∧ isWsC c = false ∧
    c ≠ ']' ∧ c ≠ rbrace ∧ c ≠ ',' ∧ c ≠ ':' := by
  cases v with
  | null => exact ⟨'n', _, rfl, by decide, by decide, by decide, by decide, by decide⟩
  | jbool b =>
    cases b with
    | true => exact ⟨'t', _, rfl, by decide, by decide, by decide, by decide, by decide⟩
    | false => exact ⟨'f', _, rfl, by decide, by decide, by decide, by decide, by decide⟩
  | num n =>
    by_cases hneg : n < 0
    · exact ⟨'-', natDigits n.natAbs, by simp [ser, serNum, hneg], by decide, by decide,
        by decide, by decide, by decide⟩
    · cases hnd : natDigits n.toNat with
      | nil => exact absurd hnd (natDigits_ne_nil _)
      | cons c cs =>
        have hc : isDigitC c = true := natDigits_digits n.toNat c (by rw [hnd]; simp)
        obtain ⟨hw, _, _, _, _, _, _, _, h1, h2, h3, h4⟩ := isDigit_facts c hc
        exact ⟨c, cs, by simp [ser, serNum, hneg, hnd], hw, h1, h2, h3, h4⟩
  | str s => exact ⟨'"', _, rfl, by decide, by decide, by decide, by decide, by decide⟩
  | arr a =>
    cases a with
    | nil => exact ⟨'[', _, rfl, by decide, by decide, by decide, by decide, by decide⟩
    | cons x t => exact ⟨'[', _, rfl, by decide, by decide, by decide, by decide, by decide⟩
  | obj o =>
    cases o with
    | nil => exact ⟨lbrace, _, rfl, by decide, by decide, by decide, by decide, by decide⟩
    | cons k v t => exact ⟨lbrace, _, rfl, by decide, by decide, by decide, by decide, by decide⟩

theorem pVal_quote (f : Nat) (r : Str) :
    pVal (f + 1) ('"' :: r) = (pStrBody r).map (fun p => (.str p.1, p.2)) := rfl

theorem pVal_neg (f : Nat) (r : Str) :
    pVal (f + 1) ('-' :: r) = (pDigits r).map (fun p => (.num (-(p.1 : Int)), p.2)) := rfl

theorem pVal_lbracket (f : Nat) (r : Str) :
    pVal (f + 1) ('[' :: r) =
    (match skipWs r with
     | ']' :: r2 => some (.arr .nil, r2)
     | _ => (pElems f r).map (fun p => (.arr p.1, p.2))) := rfl

theorem pElems_unfold (f : Nat) (r : Str) :
    pElems (f + 1) r =
    (match pVal f r with
     | none => none
     | some (v, r1) =>
       match skipWs r1 with
       | ',' :: r2 => (pElems f r2).map (fun p => (.cons v p.1, p.2))
       | ']' :: r2 => some (.cons v .nil, r2)
       | _ => none) := rfl

theorem pMembs_unfold (f : Nat) (r : Str) :
    pMembs (f + 1) r =
    (match skipWs r with
     | '"' :: r0 =>
       match pStrBody r0 with
       | none => none
       | some (k, r1) =>
         match skipWs r1 with
         | ':' :: r2 =>
           match pVal f r2 with
           | none => none
           | some (v, r3) =>
             match skipWs r3 with
             | ',' :: r4 => (pMembs f r4).map (fun p => (.cons k v p.1, p.2))
             | b :: r4 => if b = rbrace then some (.cons k v .nil, r4) else none
             | [] => none
         | _ => none
     | _ => none) := rfl

theorem pVal_succ (f : Nat) (s : Str) :
    pVal (f + 1) s =
    (match skipWs s with
     | [] => none
     | c :: r =>
       if c = 'n' then
         match r with
         | 'u' :: 'l' :: 'l' :: r2 => some (.null, r2)
         | _ => none
       else if c = 't' then
         match r with
         | 'r' :: 'u' :: 'e' :: r2 => some (.jbool true, r2)
         | _ => none
       else if c = 'f' then
         match r with
         | 'a' :: 'l' :: 's' :: 'e' :: r2 => some (.jbool false, r2)
         | _ => none
       else if c = '"' then (pStrBody r).map (fun p => (.str p.1, p.2))
       else if c = '-' then (pDigits r).map (fun p => (.num (-(p.1 : Int)), p.2))
       else if c = '[' then
         match skipWs r with
         | ']' :: r2 => some (.arr .nil, r2)
         | _ => (pElems f r).map (fun p => (.arr p.1, p.2))
       else if c = lbrace then
         match skipWs r with
         | b :: r2 => if b = rbrace then some (.obj .nil, r2)
                      else (pMembs f r).map (fun p => (.obj p.1, p.2))
         | [] => (pMembs f r).map (fun p => (.obj p.1, p.2))
       else if isDigitC c then (pDigits (c :: r)).map (fun p => (.num (p.1 : Int), p.2))
       else none) := rfl

theorem pVal_digit (f : Nat) (c : Char) (r : Str) (h : isDigitC c = true) :
    pVal (f + 1) (c :: r) = (pDigits (c :: r)).map (fun p => (.num (p.1 : Int), p.2)) := by
  obtain ⟨hw, hn, ht, hf2, hq, hm, hbk, hbc, _, _, _, _⟩ := isDigit_facts c h
  rw [pVal_succ, skipWs_cons c r hw]
  simp [hn, ht, hf2, hq, hm, hbk, hbc, h]

theorem pVal_arrCons (f : Nat) (x : Json) (X : Str) :
    pVal (f + 1) ('[' :: (ser x ++ X)) =
    (pElems f (ser x ++ X)).map (fun p => (.arr p.1, p.2)) := by
  rw [pVal_lbracket]
  obtain ⟨c, r', hser, hw, hbr, _, _, _⟩ := ser_head x
  rw [hser, List.cons_append, skipWs_cons c _ hw]
  split
  · next heq => rw [List.cons_eq_cons] at heq; exact absurd heq.1 hbr
  · rfl

theorem pVal_objCons (f : Nat) (k : Str) (X : Str) :
    pVal (f + 1) (lbrace :: (serStr k ++ X)) =
    (pMembs f (serStr k ++ X)).map (fun p => (.obj p.1, p.2)) := rfl

mutual

theorem pVal_ser (v : Json) : ∀ (fuel : Nat) (rest : Str), fuelOf v ≤ fuel → Delim rest →
    pVal fuel (ser v ++ rest) = some (v, rest) := by
  intro fuel rest hf hd
  cases fuel with
  | zero => exact absurd (Nat.le_trans (fuelOf_pos v) hf) (by omega)
  | succ f =>
    cases v with
    | null => rfl
    | jbool b => cases b <;> rfl
    | num n =>
      by_cases hneg : n < 0
      · have hser : ser (.num n) = '-' :: natDigits n.natAbs := by simp [ser, serNum, hneg]
        rw [hser, List.cons_append, pVal_neg, pDigits_natDigits _ rest hd]
        have hval : (-(n.natAbs : Int)) = n := by omega
        dsimp only [Option.map]
        rw [hval]
      · cases hnd : natDigits n.toNat with
        | nil => exact absurd hnd (natDigits_ne_nil _)
        | cons c cs =>
          have hser : ser (.num n) = c :: cs := by simp [ser, serNum, hneg, hnd]
          have hc : isDigitC c = true := natDigits_digits n.toNat c (by rw [hnd]; simp)
          rw [hser, List.cons_append, pVal_digit f c _ hc]
          have hback : (c :: (cs ++ rest)) = natDigits n.toNat ++ rest := by rw [hnd]; rfl
          rw [hback, pDigits_natDigits _ rest hd]
          have hval : ((n.toNat : Nat) : Int) = n := by omega
          dsimp only [Option.map]
          rw [hval]
    | str s =>
      have hser : ser (.str s) ++ rest = '"' :: (escape s ++ '"' :: rest) := by
        simp [ser, serStr]
      rw [hser, pVal_quote, pStrBody_escape]
      rfl
    | arr a =>
      cases a with
      | nil => rfl
      | cons x t =>
        have hser : ser (.arr (.cons x t)) ++ rest
            = '[' :: (ser x ++ (serArrTail t ++ ']' :: rest)) := by
          simp [ser]
        have hfe : fuelElems (.cons x t) ≤ f := by
          simp only [fuelOf] at hf; omega
        rw [hser, pVal_arrCons, pElems_ser x t f rest hfe hd]
        rfl
    | obj o =>
      cases o with
      | nil => rfl
      | cons k v t =>
        have hser : ser (.obj (.cons k v t)) ++ rest
            = lbrace :: (serStr k ++ (':' :: (ser v ++ (serObjTail t ++ rbrace :: rest)))) := by
          simp [ser]
        have hfm : fuelMembs (.cons k v t) ≤ f := by
          simp only [fuelOf] at hf; omega
        rw [hser, pVal_objCons, pMembs_ser k v t f rest hfm hd]
        rfl
termination_by sizeOf v
decreasing_by all_goals (subst_vars; simp; omega)

theorem pElems_ser (x : Json) (t : JArr) : ∀ (fuel : Nat) (rest : Str),
    fuelElems (.cons x t) ≤ fuel → Delim rest →
    pElems fuel (ser x ++ (serArrTail t ++ ']' :: rest)) = some (.cons x t, rest) := by
  intro fuel rest hf hd
  cases fuel with
  | zero => simp only [fuelElems] at hf; omega
  | succ f =>
    have hfx : fuelOf x ≤ f := by simp only [fuelElems] at hf; omega
    rw [pElems_unfold, pVal_ser x f _ hfx (delim_of_arrTail t rest)]
    cases t with
    | nil =>
      have h1 : serArrTail JArr.nil ++ ']' :: rest = ']' :: rest := by simp [serArrTail]
      rw [h1]
      rfl
    | cons y t' =>
      have h1 : serArrTail (JArr.cons y t') ++ ']' :: rest
          = ',' :: (ser y ++ (serArrTail t' ++ ']' :: rest)) := by
        simp [serArrTail]
      have hfy : fuelElems (.cons y t') ≤ f := by simp only [fuelElems] at hf ⊢; omega
      rw [h1]
      show (pElems f (ser y ++ (serArrTail t' ++ ']' :: rest))).map
          (fun p => (JArr.cons x p.1, p.2)) = some (JArr.cons x (JArr.cons y t'), rest)
      rw [pElems_ser y t' f rest hfy hd]
      rfl
termination_by sizeOf x + sizeOf t + 1
decreasing_by all_goals (subst_vars; simp; omega)

theorem pMembs_ser (k : Str) (v : Json) (t : JObj) : ∀ (fuel : Nat) (rest : Str),
    fuelMembs (.cons k v t) ≤ fuel → Delim rest →
    pMembs fuel (serStr k ++ (':' :: (ser v ++ (serObjTail t ++ rbrace :: rest))))
      = some (.cons k v t, rest) := by
  intro fuel rest hf hd
  cases fuel with
  | zero => simp only [fuelMembs] at hf; omega
  | succ f =>
    have hfv : fuelOf v ≤ f := by simp only [fuelMembs] at hf; omega
    have h1 : serStr k ++ (':' :: (ser v ++ (serObjTail t ++ rbrace :: rest)))
        = '"' :: (escape k ++ '"' :: (':' :: (ser v ++ (serObjTail t ++ rbrace :: rest)))) := by
      simp [serStr]
    rw [pMembs_unfold, h1]
    rw [skipWs_cons _ _ (by decide)]
    show (match pStrBody (escape k ++ '"' :: (':' :: (ser v ++ (serObjTail t ++ rbrace :: rest)))) with
          | none => none
          | some (k1, r1) =>
            match skipWs r1 with
            | ':' :: r2 =>
              match pVal f r2 with
              | none => none
              | some (v1, r3) =>
                match skipWs r3 with
                | ',' :: r4 => (pMembs f r4).map (fun p => (JObj.cons k1 v1 p.1, p.2))
                | b :: r4 => if b = rbrace then some (JObj.cons k1 v1 JObj.nil, r4) else none
                | [] => none
            | _ => none) = some (JObj.cons k v t, rest)
    rw [pStrBody_escape]
    show (match pVal f (ser v ++ (serObjTail t ++ rbrace :: rest)) with
          | none => none
          | some (v1, r3) =>
            match skipWs r3 with
            | ',' :: r4 => (pMembs f r4).map (fun p => (JObj.cons k v1 p.1, p.2))
            | b :: r4 => if b = rbrace then some (JObj.cons k v1 JObj.nil, r4) else none
            | [] => none) = some (JObj.cons k v t, rest)
    rw [pVal_ser v f _ hfv (delim_of_objTail t rest)]
    cases t with
    | nil =>
      have h4 : serObjTail JObj.nil ++ rbrace :: rest = rbrace :: rest := by simp [serObjTail]
      rw [h4]
      rfl
    | cons k' v' t' =>
      have h4 : serObjTail (JObj.cons k' v' t') ++ rbrace :: rest
          = ',' :: (serStr k' ++ (':' :: (ser v' ++ (serObjTail t' ++ rbrace :: rest)))) := by
        simp [serObjTail]
      have hft : fuelMembs (.cons k' v' t') ≤ f := by simp only [fuelMembs] at hf ⊢; omega
      rw [h4]
      show (pMembs f (serStr k' ++ (':' :: (ser v' ++ (serObjTail t' ++ rbrace :: rest))))).map
          (fun p => (JObj.cons k v p.1, p.2)) = some (JObj.cons k v (JObj.cons k' v' t'), rest)
      rw [pMembs_ser k' v' t' f rest hft hd]
      rfl
termination_by sizeOf v + sizeOf t + 1
decreasing_by all_goals (subst_vars; simp; omega)

end

theorem ser_length_pos (v : Json) : 1 ≤ (ser v).length := by
  obtain ⟨c, r', h, _⟩ := ser_head v
  simp [h]

mutual

theorem fuelOf_le_len (v : Json) : fuelOf v ≤ (ser v).length := by
  cases v with
  | null => decide
  | jbool b => cases b <;> simp [fuelOf, ser]
  | num n =>
    have h1 := ser_length_pos (.num n)
    simpa [fuelOf] using h1
  | str s => simp [fuelOf, ser, serStr]
  | arr a =>
    cases a with
    | nil => simp [fuelOf, fuelElems, ser]
    | cons x t =>
      have := fuelElems_le_len x t
      simp only [fuelOf, ser]
      simp only [List.cons_append, List.length_cons, List.length_append] at *
      omega
  | obj o =>
    cases o with
    | nil => simp [fuelOf, fuelMembs, ser]
    | cons k v t =>
      have := fuelMembs_le_len k v t
      simp only [fuelOf, ser]
      simp only [List.cons_append, List.length_cons, List.length_append] at *
      omega
termination_by sizeOf v
decreasing_by all_goals (subst_vars; simp; omega)

theorem fuelElems_le_len (x : Json) (t : JArr) :
    fuelElems (.cons x t) ≤ (ser x ++ serArrTail t).length + 1 := by
  have h1 := fuelOf_le_len x
  have h2 := ser_length_pos x
  cases t with
  | nil =>
    simp only [fuelElems, serArrTail, List.append_nil]
    omega
  | cons y t' =>
    have h3 := fuelElems_le_len y t'
    simp only [fuelElems, serArrTail] at *
    simp only [List.length_append, List.cons_append, List.length_cons] at *
    omega
termination_by sizeOf x + sizeOf t + 1
decreasing_by all_goals (subst_vars; simp; omega)

theorem fuelMembs_le_len (k : Str) (v : Json) (t : JObj) :
    fuelMembs (.cons k v t) ≤ (serStr k ++ ':' :: ser v ++ serObjTail t).length + 1 := by
  have h1 := fuelOf_le_len v
  cases t with
  | nil =>
    simp only [fuelMembs, serObjTail, List.append_nil, serStr]
    simp only [List.length_append, List.length_cons]
    omega
  | cons k' v' t' =>
    have h2 := fuelMembs_le_len k' v' t'
    simp only [fuelMembs, serObjTail] at *
    simp only [List.length_append, List.cons_append, List.length_cons, serStr] at *
    omega
termination_by sizeOf v + sizeOf t + 1
decreasing_by all_goals (subst_vars; simp; omega)

end

theorem jsonParse_ser (v : Json) : jsonParse (ser v) = some v := by
  have hfuel : fuelOf v ≤ (ser v).length + 1 := Nat.le_trans (fuelOf_le_len v) (by omega)
  have h1 : pVal ((ser v).length + 1) (ser v ++ []) = some (v, []) :=
    pVal_ser v ((ser v).length + 1) [] hfuel (Or.inl rfl)
  rw [List.append_nil] at h1
  simp [jsonParse, h1, skipWs]

/-! ## Brace depth of serialized values

The extractor counts only the characters `{` and `}`. For values whose
strings contain no brace characters the depth of a serialized object is
zero exactly at its end and strictly positive strictly inside it, which is
what makes the extractor's scan find exactly the closing brace. -/

/-- Contribution of one character to the brace depth. -/
def braceDelta (c : Char) : Int := if c = lbrace then 1 else if c = rbrace then -1 else 0

/-- Brace depth of a string. -/
def depthOf (l : Str) : Int := (l.map braceDelta).sum

/-- A string is brace-balanced when its total depth is zero and no prefix
goes negative. -/
def Bal (l : Str) : Prop := depthOf l = 0 ∧ ∀ n, 0 ≤ depthOf (l.take n)

/-- No brace characters occur in the string. -/
def noBracesB (s : Str) : Bool := s.all (fun c => !(c = lbrace) && !(c = rbrace))

mutual

/-- No string literal (key or value) anywhere in the value contains a
literal brace character. -/
def braceCleanB : Json → Bool
  | .str s => noBracesB s
  | .arr a => cleanArrB a
  | .obj o => cleanObjB o
  | _ => true

/-- Array version of `braceCleanB`. -/
def cleanArrB : JArr → Bool
  | .nil => true
  | .cons x t => braceCleanB x && cleanArrB t

/-- Member-list version of `braceCleanB`. -/
def cleanObjB : JObj → Bool
  | .nil => true
  | .cons k v t => noBracesB k && braceCleanB v && cleanObjB t

end

theorem depthOf_nil : depthOf [] = 0 := rfl

theorem depthOf_append (a b : Str) : depthOf (a ++ b) = depthOf a + depthOf b := by
  simp [depthOf]

theorem depthOf_cons (c : Char) (l : Str) : depthOf (c :: l) = braceDelta c + depthOf l := by
  simp [depthOf]

theorem bal_append (a b : Str) (ha : Bal a) (hb : Bal b) : Bal (a ++ b) := by
  constructor
  · rw [depthOf_append, ha.1, hb.1]; rfl
  · intro n
    rw [List.take_append_eq_append_take, depthOf_append]
    have := ha.2 n
    have := hb.2 (n - a.length)
    omega

theorem depthOf_zero_of_all (l : Str) (h : ∀ c ∈ l, braceDelta c = 0) : depthOf l = 0 := by
  induction l with
  | nil => rfl
  | cons c t ih =>
    rw [depthOf_cons, h c (by simp), ih (fun c hc => h c (by simp [hc]))]; rfl

theorem bal_all_zero (l : Str) (h : ∀ c ∈ l, braceDelta c = 0) : Bal l := by
  refine ⟨depthOf_zero_of_all l h, fun n => ?_⟩
  rw [depthOf_zero_of_all (l.take n) (fun c hc => h c (List.take_subset n l hc))]

theorem bal_wrap (inner : Str) (h : Bal inner) : Bal (lbrace :: inner ++ [rbrace]) := by
  constructor
  · rw [List.cons_append, depthOf_cons, depthOf_append, h.1]
    decide
  · intro n
    cases n with
    | zero => simp [depthOf]
    | succ m =>
      rw [List.cons_append, List.take_succ_cons, depthOf_cons]
      rw [List.take_append_eq_append_take, depthOf_append]
      have h1 := h.2 m
      have h2 : depthOf (([rbrace] : Str).take (m - inner.length)) = 0 ∨
          depthOf (([rbrace] : Str).take (m - inner.length)) = -1 := by
        cases hm : (m - inner.length) with
        | zero => left; rfl
        | succ m' => right; simp [List.take_cons]; rfl
      have hlb : braceDelta lbrace = 1 := by decide
      omega

theorem depth_wrap_pos (inner : Str) (h : Bal inner) :
    ∀ n, 1 ≤ n → n ≤ inner.length + 1 →
    0 < depthOf ((lbrace :: inner ++ [rbrace]).take n) := by
  intro n h1 h2
  cases n with
  | zero => omega
  | succ m =>
    rw [List.cons_append, List.take_succ_cons, depthOf_cons]
    rw [List.take_append_eq_append_take, depthOf_append]
    have h3 := h.2 m
    have h4 : ([rbrace] : Str).take (m - inner.length) = [] := by
      have : m - inner.length = 0 := by omega
      simp [this]
    rw [h4]
    have hlb : braceDelta lbrace = 1 := by decide
    rw [depthOf_nil]
    omega

theorem braceDelta_of_ne (c : Char) (h1 : ¬ c = lbrace) (h2 : ¬ c = rbrace) :
    braceDelta c = 0 := by
  simp [braceDelta, h1, h2]

theorem escape_mem (s : Str) (c : Char) (hc : c ∈ escape s) : c = '\\' ∨ c ∈ s := by
  induction s with
  | nil => simp [escape] at hc
  | cons a t ih =>
    by_cases ha : a = '"' ∨ a = '\\' <;> simp only [escape, ha, if_pos, if_neg] at hc
    · simp at hc
      rcases hc with h | h | h
      · exact Or.inl h
      · exact Or.inr (by simp [h])
      · rcases ih h with h2 | h2
        · exact Or.inl h2
        · exact Or.inr (by simp [h2])
    · simp at hc
      rcases hc with h | h
      · exact Or.inr (by simp [h])
      · rcases ih h with h2 | h2
        · exact Or.inl h2
        · exact Or.inr (by simp [h2])

theorem noBraces_mem (s : Str) (h : noBracesB s = true) (c : Char) (hc : c ∈ s) :
    braceDelta c = 0 := by
  simp only [noBracesB, List.all_eq_true, Bool.and_eq_true, Bool.not_eq_true',
    decide_eq_false_iff_not] at h
  obtain ⟨h1, h2⟩ := h c hc
  exact braceDelta_of_ne c h1 h2

theorem serStr_zero (s : Str) (h : noBracesB s = true) :
    ∀ c ∈ serStr s, braceDelta c = 0 := by
  intro c hc
  rw [serStr] at hc
  rcases List.mem_cons.1 hc with h1 | h1
  · subst h1; decide
  · rcases List.mem_append.1 h1 with h2 | h2
    · rcases escape_mem s c h2 with h3 | h3
      · subst h3; decide
      · exact noBraces_mem s h c h3
    · have h3 := List.mem_singleton.1 h2
      subst h3; decide

theorem isDigit_delta (c : Char) (h : isDigitC c = true) : braceDelta c = 0 := by
  refine braceDelta_of_ne c ?_ ?_ <;> intro he <;> subst he <;> exact absurd h (by decide)

theorem serNum_zero (n : Int) : ∀ c ∈ serNum n, braceDelta c = 0 := by
  intro c hc
  by_cases hneg : n < 0 <;> simp only [serNum, hneg, if_pos, if_neg, not_false_iff,
    List.mem_cons] at hc
  · rcases hc with h1 | h1
    · subst h1; decide
    · exact isDigit_delta c (natDigits_digits _ c h1)
  · exact isDigit_delta c (natDigits_digits _ c hc)

/-- Inner text of a serialized object, between the braces. -/
def objInner : JObj → Str
  | .nil => []
  | .cons k v t => serStr k ++ ':' :: ser v ++ serObjTail t

theorem ser_obj_shape (o : JObj) : ser (.obj o) = lbrace :: objInner o ++ [rbrace] := by
  cases o <;> rfl

mutual

theorem bal_ser (v : Json) (h : braceCleanB v = true) : Bal (ser v) := by
  cases v with
  | null => exact bal_all_zero _ (by decide)
  | jbool b => cases b <;> exact bal_all_zero _ (by decide)
  | num n => exact bal_all_zero _ (serNum_zero n)
  | str s => exact bal_all_zero _ (serStr_zero s (by simpa [braceCleanB] using h))
  | arr a =>
    cases a with
    | nil => exact bal_all_zero _ (by decide)
    | cons x t =>
      have hx : braceCleanB x = true := by
        simp only [braceCleanB, cleanArrB, Bool.and_eq_true] at h; exact h.1
      have ht : cleanArrB t = true := by
        simp only [braceCleanB, cleanArrB, Bool.and_eq_true] at h; exact h.2
      have h1 : ser (.arr (.cons x t)) = ['['] ++ (ser x ++ serArrTail t) ++ ([']'] : Str) := by
        simp [ser]
      rw [h1]
      exact bal_append _ _ (bal_append _ _ (bal_all_zero _ (by decide))
        (bal_append _ _ (bal_ser x hx) (bal_serArrTail t ht))) (bal_all_zero _ (by decide))
  | obj o =>
    rw [ser_obj_shape]
    exact bal_wrap _ (bal_objInner o (by simpa [braceCleanB] using h))

theorem bal_serArrTail (t : JArr) (h : cleanArrB t = true) : Bal (serArrTail t) := by
  cases t with
  | nil => exact bal_all_zero _ (by decide)
  | cons x t' =>
    have hx : braceCleanB x = true := by
      simp only [cleanArrB, Bool.and_eq_true] at h; exact h.1
    have ht : cleanArrB t' = true := by
      simp only [cleanArrB, Bool.and_eq_true] at h; exact h.2
    have h1 : serArrTail (.cons x t') = [','] ++ ser x ++ serArrTail t' := by
      simp [serArrTail]
    rw [h1]
    exact bal_append _ _ (bal_append _ _ (bal_all_zero _ (by decide)) (bal_ser x hx))
      (bal_serArrTail t' ht)

theorem bal_serObjTail (t : JObj) (h : cleanObjB t = true) : Bal (serObjTail t) := by
  cases t with
  | nil => exact bal_all_zero _ (by decide)
  | cons k v t' =>
    have hk : noBracesB k = true := by
      simp only [cleanObjB, Bool.and_eq_true] at h; exact h.1.1
    have hv : braceCleanB v = true := by
      simp only [cleanObjB, Bool.and_eq_true] at h; exact h.1.2
    have ht : cleanObjB t' = true := by
      simp only [cleanObjB, Bool.and_eq_true] at h; exact h.2
    have h1 : serObjTail (.cons k v t') = [','] ++ serStr k ++ ([':'] ++ ser v)
        ++ serObjTail t' := by
      simp [serObjTail]
    rw [h1]
    refine bal_append _ _ (bal_append _ _ (bal_append _ _ (bal_all_zero _ (by decide))
      (bal_all_zero _ (serStr_zero k hk))) (bal_append _ _ (bal_all_zero _ (by decide))
      (bal_ser v hv))) (bal_serObjTail t' ht)

theorem bal_objInner (o : JObj) (h : cleanObjB o = true) : Bal (objInner o) := by
  cases o with
  | nil => exact bal_all_zero _ (by decide)
  | cons k v t =>
    have hk : noBracesB k = true := by
      simp only [cleanObjB, Bool.and_eq_true] at h; exact h.1.1
    have hv : braceCleanB v = true := by
      simp only [cleanObjB, Bool.and_eq_true] at h; exact h.1.2
    have ht : cleanObjB t = true := by
      simp only [cleanObjB, Bool.and_eq_true] at h; exact h.2
    have h1 : objInner (.cons k v t) = serStr k ++ ([':'] ++ ser v) ++ serObjTail t := by
      simp [objInner]
    rw [h1]
    exact bal_append _ _ (bal_append _ _ (bal_all_zero _ (serStr_zero k hk))
      (bal_append _ _ (bal_all_zero _ (by decide)) (bal_ser v hv))) (bal_serObjTail t ht)

end

theorem ser_obj_len (o : JObj) : (ser (.obj o)).length = (objInner o).length + 2 := by
  rw [ser_obj_shape]
  simp

theorem findEndAux_delta (c : Char) (cnt : Int) :
    (if c = lbrace then cnt + 1 else if c = rbrace then cnt - 1 else cnt) = cnt + braceDelta c := by
  unfold braceDelta
  by_cases h1 : c = lbrace
  · rw [if_pos h1, if_pos h1]
  · rw [if_neg h1, if_neg h1]
    by_cases h2 : c = rbrace
    · rw [if_pos h2, if_pos h2]; omega
    · rw [if_neg h2, if_neg h2]; omega

theorem findEnd_cons_lbrace (rest : Str) :
    findEnd (lbrace :: rest) 0 = findEndAux rest 1 1 := rfl

theorem findEndAux_none (rest : Str) : ∀ (cnt : Int) (i : Nat),
    (∀ m, 1 ≤ m → m ≤ rest.length → cnt + depthOf (rest.take m) ≠ 0) →
    findEndAux rest cnt i = none := by
  induction rest with
  | nil => intro cnt i _; rfl
  | cons c rest' ih =>
    intro cnt i h
    have h1 : cnt + braceDelta c ≠ 0 := by
      have := h 1 (by omega) (by simp)
      simpa [depthOf] using this
    rw [findEndAux, findEndAux_delta, if_neg h1]
    apply ih
    intro m hm1 hm2
    have := h (m + 1) (by omega) (by simp; omega)
    rw [List.take_succ_cons, depthOf_cons] at this
    omega

theorem findEndAux_some (rest : Str) : ∀ (cnt : Int) (i : Nat) (e : Nat),
    e < rest.length →
    cnt + depthOf (rest.take (e + 1)) = 0 →
    (∀ m, 1 ≤ m → m ≤ e → cnt + depthOf (rest.take m) ≠ 0) →
    findEndAux rest cnt i = some (i + e) := by
  induction rest with
  | nil => intro cnt i e he; simp at he
  | cons c rest' ih =>
    intro cnt i e he hz hp
    cases e with
    | zero =>
      have h1 : cnt + braceDelta c = 0 := by
        simpa [depthOf] using hz
      rw [findEndAux, findEndAux_delta, if_pos h1]
      rfl
    | succ e' =>
      have h1 : cnt + braceDelta c ≠ 0 := by
        have := hp 1 (by omega) (by omega)
        simpa [depthOf] using this
      rw [findEndAux, findEndAux_delta, if_neg h1]
      have hres := ih (cnt + braceDelta c) (i + 1) e' (by simp at he; omega) ?_ ?_
      · rw [hres]
        congr 1
        omega
      · rw [List.take_succ_cons, depthOf_cons] at hz
        omega
      · intro m hm1 hm2
        have := hp (m + 1) (by omega) (by omega)
        rw [List.take_succ_cons, depthOf_cons] at this
        omega

theorem findEnd_obj (o : JObj) (h : cleanObjB o = true) (X : Str) :
    findEnd (ser (.obj o) ++ X) 0 = some ((ser (.obj o)).length - 1) := by
  have hbal : Bal (objInner o) := bal_objInner o h
  have hshape : ser (.obj o) ++ X = lbrace :: ((objInner o ++ [rbrace]) ++ X) := by
    rw [ser_obj_shape]
    simp
  rw [hshape, findEnd_cons_lbrace]
  have hres := findEndAux_some ((objInner o ++ [rbrace]) ++ X) 1 1 (objInner o).length ?_ ?_ ?_
  · rw [hres, ser_obj_len]
    congr 1
    omega
  · simp
  · have htake : ((objInner o ++ [rbrace]) ++ X).take ((objInner o).length + 1)
        = objInner o ++ [rbrace] := by
      have : (objInner o).length + 1 = (objInner o ++ [rbrace]).length := by simp
      rw [this, List.take_left]
    rw [htake, depthOf_append, hbal.1]
    decide
  · intro m hm1 hm2
    have htake : ((objInner o ++ [rbrace]) ++ X).take m = (objInner o).take m := by
      rw [List.take_append_of_le_length (by simp; omega),
        List.take_append_of_le_length (by omega)]
    rw [htake]
    have := hbal.2 m
    omega

theorem findEnd_obj_stub (o : JObj) (h : cleanObjB o = true) (p : Str) (hne : p ≠ [])
    (hpre : pre p (ser (.obj o))) (hproper : p.length < (ser (.obj o)).length) :
    findEnd p 0 = none := by
  obtain ⟨tl, htl⟩ := hpre
  cases p with
  | nil => exact absurd rfl hne
  | cons c ptail =>
    rw [ser_obj_shape] at htl
    rw [List.cons_append] at htl
    have hc : c = lbrace := (List.cons_eq_cons.1 htl).1
    have hrest : ptail ++ tl = objInner o ++ [rbrace] := (List.cons_eq_cons.1 htl).2
    subst hc
    rw [findEnd_cons_lbrace]
    apply findEndAux_none
    intro m hm1 hm2
    have hlen : ptail.length ≤ (objInner o).length := by
      rw [ser_obj_len] at hproper
      simp at hproper
      omega
    have htake : ptail.take m = (objInner o).take m := by
      have h1 : (ptail ++ tl).take m = ptail.take m :=
        List.take_append_of_le_length (by omega)
      have h2 : (objInner o ++ [rbrace]).take m = (objInner o).take m :=
        List.take_append_of_le_length (by omega)
      rw [← h1, hrest, h2]
    rw [htake]
    have := (bal_objInner o h).2 m
    omega

theorem indexOfFrom_nil (c : Char) (start : Nat) : indexOfFrom [] c start = none := by
  simp [indexOfFrom]

theorem indexOfFrom_head (c : Char) (X : Str) : indexOfFrom (c :: X) c 0 = some 0 := by
  simp [indexOfFrom, List.findIdx?_cons]

theorem extractLoopF_succ (f : Nat) (buf : Str) (start : Nat) :
    extractLoopF (f + 1) buf start =
    (match indexOfFrom buf lbrace start with
     | none => ([], buf)
     | some s =>
       match findEnd buf s with
       | none => ([], buf)
       | some e =>
         match jsonParse ((buf.drop s).take (e + 1 - s)) with
         | some v =>
           (v :: (extractLoopF f (buf.drop (e + 1)) 0).1, (extractLoopF f (buf.drop (e + 1)) 0).2)
         | none => extractLoopF f buf (s + 1)) := rfl

theorem extractLoopF_noidx (f : Nat) (buf : Str) (start : Nat)
    (hidx : indexOfFrom buf lbrace start = none) :
    extractLoopF (f + 1) buf start = ([], buf) := by
  rw [extractLoopF_succ, hidx]

theorem extractLoopF_noend (f : Nat) (buf : Str) (start s : Nat)
    (hidx : indexOfFrom buf lbrace start = some s)
    (hfe : findEnd buf s = none) :
    extractLoopF (f + 1) buf start = ([], buf) := by
  rw [extractLoopF_succ, hidx]
  show (match findEnd buf s with
        | none => ([], buf)
        | some e =>
          match jsonParse ((buf.drop s).take (e + 1 - s)) with
          | some v =>
            (v :: (extractLoopF f (buf.drop (e + 1)) 0).1, (extractLoopF f (buf.drop (e + 1)) 0).2)
          | none => extractLoopF f buf (s + 1)) = ([], buf)
  rw [hfe]

theorem extractLoopF_success (f : Nat) (buf : Str) (e : Nat) (v : Json)
    (hidx : indexOfFrom buf lbrace 0 = some 0)
    (hfe : findEnd buf 0 = some e)
    (hp : jsonParse (buf.take (e + 1)) = some v) :
    extractLoopF (f + 1) buf 0 =
    (v :: (extractLoopF f (buf.drop (e + 1)) 0).1, (extractLoopF f (buf.drop (e + 1)) 0).2) := by
  rw [extractLoopF_succ, hidx]
  show (match findEnd buf 0 with
        | none => ([], buf)
        | some e2 =>
          match jsonParse ((buf.drop 0).take (e2 + 1 - 0)) with
          | some v2 =>
            (v2 :: (extractLoopF f (buf.drop (e2 + 1)) 0).1,
              (extractLoopF f (buf.drop (e2 + 1)) 0).2)
          | none => extractLoopF f buf (0 + 1)) = _
  rw [hfe]
  show (match jsonParse ((buf.drop 0).take (e + 1 - 0)) with
        | some v2 =>
          (v2 :: (extractLoopF f (buf.drop (e + 1)) 0).1, (extractLoopF f (buf.drop (e + 1)) 0).2)
        | none => extractLoopF f buf (0 + 1)) = _
  rw [List.drop_zero, Nat.sub_zero, hp]

/-- A stub buffer: empty, or a strict prefix of the serialization of some
brace-clean object (an object opened but not yet closed). -/
def Stub (r : Str) : Prop :=
  r = [] ∨ ∃ o : JObj, cleanObjB o = true ∧ pre r (ser (.obj o)) ∧
    r.length < (ser (.obj o)).length

/-- Is the value a JSON object? -/
def isObjB : Json → Bool
  | .obj _ => true
  | _ => false

theorem extract_stub (r : Str) (hstub : Stub r) (fuel : Nat) (hfuel : 1 ≤ fuel) :
    extractLoopF fuel r 0 = ([], r) := by
  cases fuel with
  | zero => omega
  | succ f =>
    rcases hstub with h | ⟨o, hcl, hpre, hlt⟩
    · subst h
      exact extractLoopF_noidx f [] 0 (indexOfFrom_nil _ _)
    · cases hr : r with
      | nil => exact extractLoopF_noidx f [] 0 (indexOfFrom_nil _ _)
      | cons c rt =>
        subst hr
        obtain ⟨tl, htl⟩ := hpre
        have hc : c = lbrace := by
          rw [ser_obj_shape, List.cons_append] at htl
          exact (List.cons_eq_cons.1 htl).1
        subst hc
        exact extractLoopF_noend f _ 0 0 (indexOfFrom_head _ _)
          (findEnd_obj_stub o hcl _ (by simp) ⟨tl, htl⟩ hlt)

theorem concatSer_cons (v : Json) (os : List Json) :
    concatSer (v :: os) = ser v ++ concatSer os := by
  simp [concatSer, sconcat]

theorem concatSer_nil : concatSer [] = [] := rfl

theorem extract_concat (os : List Json) : ∀ (r : Str) (fuel : Nat),
    (∀ v ∈ os, isObjB v = true ∧ braceCleanB v = true) → Stub r →
    (concatSer os ++ r).length < fuel →
    extractLoopF fuel (concatSer os ++ r) 0 = (os, r) := by
  induction os with
  | nil =>
    intro r fuel _ hstub hlen
    have h0 : concatSer [] ++ r = r := by simp [concatSer_nil]
    rw [h0] at hlen ⊢
    exact extract_stub r hstub fuel (by omega)
  | cons v os' ih =>
    intro r fuel hclean hstub hlen
    obtain ⟨hobj, hcl⟩ := hclean v (by simp)
    obtain ⟨oo, hoo⟩ : ∃ oo, v = .obj oo := by
      cases v <;> simp [isObjB] at hobj ⊢
    subst hoo
    have hbuf : concatSer (Json.obj oo :: os') ++ r
        = ser (.obj oo) ++ (concatSer os' ++ r) := by
      rw [concatSer_cons, List.append_assoc]
    rw [hbuf] at hlen ⊢
    cases fuel with
    | zero => omega
    | succ f =>
    have hidx : indexOfFrom (ser (.obj oo) ++ (concatSer os' ++ r)) lbrace 0 = some 0 := by
      rw [ser_obj_shape, List.cons_append, List.cons_append]
      exact indexOfFrom_head _ _
    have hfe := findEnd_obj oo (by simpa [braceCleanB] using hcl) (concatSer os' ++ r)
    have hlenpos : 1 ≤ (ser (.obj oo)).length := ser_length_pos _
    have hL : (ser (.obj oo)).length - 1 + 1 = (ser (.obj oo)).length := by omega
    have hp : jsonParse ((ser (.obj oo) ++ (concatSer os' ++ r)).take
        ((ser (.obj oo)).length - 1 + 1)) = some (.obj oo) := by
      rw [hL, List.take_left]
      exact jsonParse_ser _
    rw [extractLoopF_success f _ _ _ hidx hfe hp]
    have hdrop : (ser (.obj oo) ++ (concatSer os' ++ r)).drop ((ser (.obj oo)).length - 1 + 1)
        = concatSer os' ++ r := by
      rw [hL, List.drop_left]
    rw [hdrop]
    have hfuel2 : (concatSer os' ++ r).length < f := by
      rw [List.length_append] at hlen
      have h2 : 2 ≤ (ser (.obj oo)).length := by
        rw [ser_obj_len]
        omega
      omega
    rw [ih r f (fun w hw => hclean w (by simp [hw])) hstub hfuel2]

theorem pre_refl (a : Str) : pre a a := ⟨[], by simp⟩

theorem pre_nil_right (b : Str) (h : pre b []) : b = [] := by
  obtain ⟨t, ht⟩ := h
  exact List.append_eq_nil.1 ht |>.1

theorem pre_trans (a b c : Str) (h1 : pre a b) (h2 : pre b c) : pre a c := by
  obtain ⟨t1, ht1⟩ := h1
  obtain ⟨t2, ht2⟩ := h2
  exact ⟨t1 ++ t2, by rw [← List.append_assoc, ht1, ht2]⟩

theorem pre_length_le (a b : Str) (h : pre a b) : a.length ≤ b.length := by
  obtain ⟨t, ht⟩ := h
  rw [← ht]
  simp

theorem pre_take (b : Str) (n : Nat) : pre (b.take n) b := by
  exact ⟨b.drop n, by simp⟩

theorem pre_of_le (b x y : Str) (h : pre b (x ++ y)) (hl : b.length ≤ x.length) : pre b x := by
  obtain ⟨t, ht⟩ := h
  have hb : b = (x ++ y).take b.length := by
    rw [← ht, List.take_left]
  rw [List.take_append_of_le_length hl] at hb
  refine ⟨x.drop b.length, ?_⟩
  calc b ++ x.drop b.length = x.take b.length ++ x.drop b.length := by rw [← hb]
    _ = x := List.take_append_drop _ _

theorem pre_split (b x y : Str) (h : pre b (x ++ y)) (hl : x.length ≤ b.length) :
    ∃ b2, b = x ++ b2 ∧ pre b2 y := by
  obtain ⟨t, ht⟩ := h
  have hx : b.take x.length = x := by
    rw [← @List.take_append_of_le_length _ b t x.length hl, ht, List.take_left]
  have hb : b = x ++ b.drop x.length := by
    calc b = b.take x.length ++ b.drop x.length := (List.take_append_drop _ _).symm
      _ = x ++ b.drop x.length := by rw [hx]
  refine ⟨b.drop x.length, hb, ⟨t, ?_⟩⟩
  have h2 : (b ++ t).drop x.length = (x ++ y).drop x.length := by rw [ht]
  rw [List.drop_append_of_le_length hl, List.drop_left] at h2
  exact h2

theorem pre_cancel_left (x u w : Str) (h : pre (x ++ u) (x ++ w)) : pre u w := by
  obtain ⟨t, ht⟩ := h
  rw [List.append_assoc] at ht
  exact ⟨t, List.append_cancel_left ht⟩

theorem concatSer_append (a b : List Json) :
    concatSer (a ++ b) = concatSer a ++ concatSer b := by
  induction a with
  | nil => simp [concatSer_nil]
  | cons v a' ih => rw [List.cons_append, concatSer_cons, concatSer_cons, ih, List.append_assoc]

theorem countComplete_zero (os : List Json) : countComplete os 0 = 0 := by
  cases os with
  | nil => rfl
  | cons o os' =>
    have := ser_length_pos o
    simp only [countComplete]
    rw [if_neg (by omega)]

theorem countComplete_le (os : List Json) : ∀ n, countComplete os n ≤ os.length := by
  induction os with
  | nil => intro n; simp [countComplete]
  | cons o os' ih =>
    intro n
    simp only [countComplete]
    split
    · have := ih (n - (ser o).length)
      simp
      omega
    · simp

theorem countComplete_full (os : List Json) : countComplete os (concatSer os).length = os.length := by
  induction os with
  | nil => rfl
  | cons o os' ih =>
    simp only [countComplete, concatSer_cons, List.length_append]
    rw [if_pos (by omega)]
    have h1 : (ser o).length + (concatSer os').length - (ser o).length
        = (concatSer os').length := by omega
    rw [h1, ih]
    simp

theorem countComplete_add (os : List Json) : ∀ (m n : Nat), m ≤ os.length →
    (concatSer (os.take m)).length ≤ n →
    countComplete os n = m + countComplete (os.drop m) (n - (concatSer (os.take m)).length) := by
  induction os with
  | nil =>
    intro m n hm _
    simp at hm
    subst hm
    simp [concatSer_nil]
  | cons o os' ih =>
    intro m n hm hlen
    cases m with
    | zero => simp [concatSer_nil]
    | succ m' =>
      rw [List.take_succ_cons, concatSer_cons, List.length_append] at hlen
      simp only [countComplete, List.drop_succ_cons]
      rw [if_pos (by omega)]
      rw [ih m' (n - (ser o).length) (by simpa using hm) (by omega)]
      rw [List.take_succ_cons, concatSer_cons, List.length_append]
      have h1 : n - (ser o).length - (concatSer (os'.take m')).length
          = n - ((ser o).length + (concatSer (os'.take m')).length) := by omega
      rw [h1]
      omega

/-- A stub relative to the remaining objects: empty, or a strict prefix of
the serialization of the next object to come. -/
def StubOf (r : Str) (rest : List Json) : Prop :=
  r = [] ∨ ∃ v rest2, rest = v :: rest2 ∧ pre r (ser v) ∧ r.length < (ser v).length

theorem stub_of_stubOf (r : Str) (rest : List Json)
    (hcl : ∀ v ∈ rest, isObjB v = true ∧ braceCleanB v = true)
    (h : StubOf r rest) : Stub r := by
  rcases h with h | ⟨v, rest2, hrest, hpre, hlt⟩
  · exact Or.inl h
  · obtain ⟨hobj, hclv⟩ := hcl v (by simp [hrest])
    obtain ⟨oo, hoo⟩ : ∃ oo, v = .obj oo := by
      cases v <;> simp [isObjB] at hobj ⊢
    subst hoo
    exact Or.inr ⟨oo, by simpa [braceCleanB] using hclv, hpre, hlt⟩

theorem decomp_prefix (os : List Json) : ∀ b : Str, pre b (concatSer os) →
    ∃ k r, k ≤ os.length ∧ b = concatSer (os.take k) ++ r ∧ StubOf r (os.drop k) ∧
      k = countComplete os b.length := by
  induction os with
  | nil =>
    intro b hb
    have h0 : b = [] := pre_nil_right b (by simpa [concatSer_nil] using hb)
    subst h0
    exact ⟨0, [], by simp, by simp [concatSer_nil], Or.inl rfl, by simp [countComplete]⟩
  | cons v os' ih =>
    intro b hb
    rw [concatSer_cons] at hb
    by_cases hlen : b.length < (ser v).length
    · refine ⟨0, b, by simp, by simp [concatSer_nil], ?_, ?_⟩
      · by_cases hbn : b = []
        · exact Or.inl hbn
        · exact Or.inr ⟨v, os', by simp, pre_of_le b _ _ hb (by omega), hlen⟩
      · simp only [countComplete]
        rw [if_neg (by omega)]
    · push_neg at hlen
      obtain ⟨b2, hb2, hpre2⟩ := pre_split b _ _ hb hlen
      obtain ⟨k', r, hk', heq, hstub, hcount⟩ := ih b2 hpre2
      refine ⟨k' + 1, r, by simp; omega, ?_, ?_, ?_⟩
      · rw [List.take_succ_cons, concatSer_cons, List.append_assoc, ← heq, hb2]
      · rw [List.drop_succ_cons]
        exact hstub
      · simp only [countComplete]
        rw [if_pos (by omega)]
        have hlb2 : b2.length = b.length - (ser v).length := by
          rw [hb2]
          simp
        rw [← hlb2, ← hcount]

theorem textOf_append (a b : List (Option Str)) :
    textOf (a ++ b) = textOf a ++ textOf b := by
  induction a with
  | nil => simp [textOf, sconcat]
  | cons x a' ih =>
    show x.getD [] ++ textOf (a' ++ b) = (x.getD [] ++ textOf a') ++ textOf b
    rw [ih, List.append_assoc]

theorem textOf_nil : textOf [] = [] := rfl

theorem extractChunk_concat (os : List Json) (r : Str)
    (hcl : ∀ v ∈ os, isObjB v = true ∧ braceCleanB v = true) (hstub : Stub r) :
    extractChunk (concatSer os ++ r) = (os, r) := by
  apply extract_concat os r _ hcl hstub
  set L := (concatSer os ++ r).length with hL
  have h1 : L + 1 ≤ (L + 1) * (L + 1) := Nat.le_mul_of_pos_right _ (by omega)
  omega

theorem textOf_some (t : Str) : textOf [some t] = t := by
  simp [textOf, sconcat]

theorem textOf_none : textOf [(none : Option Str)] = [] := rfl

theorem stream_invariant (os : List Json)
    (hcl : ∀ v ∈ os, isObjB v = true ∧ braceCleanB v = true) :
    ∀ frags : List (Option Str), pre (textOf frags) (concatSer os) →
    ∃ r, List.foldl feed ([], []) frags
        = (os.take (countComplete os (textOf frags).length), r) ∧
      textOf frags = concatSer (os.take (countComplete os (textOf frags).length)) ++ r ∧
      StubOf r (os.drop (countComplete os (textOf frags).length)) := by
  intro frags
  induction frags using List.reverseRecOn with
  | nil =>
    intro _
    refine ⟨[], ?_, ?_, Or.inl rfl⟩
    · simp [textOf_nil, countComplete_zero]
    · simp [textOf_nil, countComplete_zero, concatSer_nil]
  | append_singleton fs fr ih =>
    intro hpre
    have hpre0 : pre (textOf fs) (concatSer os) := by
      refine pre_trans _ (textOf (fs ++ [fr])) _ ?_ hpre
      rw [textOf_append]
      exact ⟨textOf [fr], rfl⟩
    obtain ⟨r, hfold, heq, hstub⟩ := ih hpre0
    cases fr with
    | none =>
      have htext : textOf (fs ++ [(none : Option Str)]) = textOf fs := by
        rw [textOf_append, textOf_none, List.append_nil]
      rw [htext]
      refine ⟨r, ?_, heq, hstub⟩
      rw [List.foldl_append, hfold]
      rfl
    | some t =>
      have htext : textOf (fs ++ [some t]) = textOf fs ++ t := by
        rw [textOf_append, textOf_some]
      set m := countComplete os (textOf fs).length with hm
      have hsplit : concatSer os = concatSer (os.take m) ++ concatSer (os.drop m) := by
        rw [← concatSer_append, List.take_append_drop]
      have hpre2 : pre (r ++ t) (concatSer (os.drop m)) := by
      -- the whole new text, re-associated to cancel the already-consumed part
        apply pre_cancel_left (concatSer (os.take m))
        rw [← hsplit]
        have h1 : concatSer (os.take m) ++ (r ++ t) = textOf (fs ++ [some t]) := by
          rw [htext, ← List.append_assoc, ← heq]
        rw [h1]
        exact hpre
      obtain ⟨k, r2, hk, heq2, hstub2, hcount2⟩ := decomp_prefix (os.drop m) (r ++ t) hpre2
      have hclean_dk : ∀ v ∈ (os.drop m).take k, isObjB v = true ∧ braceCleanB v = true :=
        fun v hv => hcl v (List.mem_of_mem_drop (List.mem_of_mem_take hv))
      have hstub_r2 : Stub r2 := by
        refine stub_of_stubOf r2 ((os.drop m).drop k)
          (fun v hv => hcl v (List.mem_of_mem_drop (List.mem_of_mem_drop hv))) hstub2
      have hchunk : extractChunk (r ++ t) = ((os.drop m).take k, r2) := by
        rw [heq2]
        exact extractChunk_concat _ _ hclean_dk hstub_r2
      have hfold2 : List.foldl feed ([], []) (fs ++ [some t])
          = (os.take m ++ (os.drop m).take k, r2) := by
        rw [List.foldl_append, hfold]
        show (os.take m ++ (extractChunk (r ++ t)).1, (extractChunk (r ++ t)).2) = _
        rw [hchunk]
      have hm_le : m ≤ os.length := countComplete_le os _
      have hlen_take : (concatSer (os.take m)).length ≤ (textOf (fs ++ [some t])).length := by
        rw [htext, heq]
        simp
      have hsub : (textOf (fs ++ [some t])).length - (concatSer (os.take m)).length
          = (r ++ t).length := by
        rw [htext, heq]
        simp
      have hcc : countComplete os (textOf (fs ++ [some t])).length = m + k := by
        rw [countComplete_add os m _ hm_le hlen_take, hsub, ← hcount2]
      refine ⟨r2, ?_, ?_, ?_⟩
      · rw [hfold2, hcc, List.take_add]
      · rw [hcc, htext, List.take_add, concatSer_append, List.append_assoc, ← heq2,
          ← List.append_assoc, ← heq]
      · rw [hcc, ← List.drop_drop]
        exact hstub2

/-- C1: for every finite sequence of JSON objects none of whose strings
contains a literal unescaped brace, serialized to text and split into
fragments at arbitrary boundaries (including mid-token), the stream JSON
extractor emits exactly the original sequence of objects in order; and
after any number `k` of fragments have been consumed, exactly those objects
whose closing brace lies within the consumed text have been emitted (each
object is emitted as soon as the fragment closing its top-level brace is
consumed), independent of where the split points fall. -/
theorem extractor_completeness (os : List Json) (frags : List (Option Str))
    (hcl : ∀ v ∈ os, isObjB v = true ∧ braceCleanB v = true)
    (htext : textOf frags = concatSer os) :
    parseJsonStream frags = os ∧
    ∀ k, prefixEmissions frags k
      = os.take (countComplete os (textOf (frags.take k)).length) := by
  constructor
  · obtain ⟨r, hfold, heq, hstub⟩ := stream_invariant os hcl frags (htext ▸ pre_refl _)
    rw [parseJsonStream, hfold, htext, countComplete_full, List.take_length]
  · intro k
    have hpre : pre (textOf (frags.take k)) (concatSer os) := by
      rw [← htext]
      refine ⟨textOf (frags.drop k), ?_⟩
      rw [← textOf_append, List.take_append_drop]
    obtain ⟨r, hfold, _, _⟩ := stream_invariant os hcl (frags.take k) hpre
    rw [prefixEmissions, hfold]

/-- Witness for C1, instantiating the spec scenario: the fragments
`{"a":1}{"b"` and `:2}` emit `{"a":1}` after the first fragment and both
objects at the end. -/
theorem extractor_completeness_witness :
    (∀ v ∈ ([.obj (.cons (strL "a") (.num 1) .nil),
             .obj (.cons (strL "b") (.num 2) .nil)] : List Json),
        isObjB v = true ∧ braceCleanB v = true) ∧
    textOf [some (strL "\x7b\"a\":1\x7d\x7b\"b\""), some (strL ":2\x7d")]
      = concatSer [.obj (.cons (strL "a") (.num 1) .nil),
                   .obj (.cons (strL "b") (.num 2) .nil)] ∧
    parseJsonStream [some (strL "\x7b\"a\":1\x7d\x7b\"b\""), some (strL ":2\x7d")]
      = [.obj (.cons (strL "a") (.num 1) .nil), .obj (.cons (strL "b") (.num 2) .nil)] ∧
    prefixEmissions [some (strL "\x7b\"a\":1\x7d\x7b\"b\""), some (strL ":2\x7d")] 1
      = [.obj (.cons (strL "a") (.num 1) .nil)] := by
  refine ⟨by decide, by decide, ?_, ?_⟩
  · exact (extractor_completeness _ _ (by decide) (by decide)).1
  · have h := (extractor_completeness
      [.obj (.cons (strL "a") (.num 1) .nil), .obj (.cons (strL "b") (.num 2) .nil)]
      [some (strL "\x7b\"a\":1\x7d\x7b\"b\""), some (strL ":2\x7d")]
      (by decide) (by decide)).2 1
    rw [h]
    decide

/-- C9: feeding the extractor text that ends in an opened but never-closed
object yields no emission for that object and no error: earlier complete
objects are emitted, the partial text remains buffered across fragments,
and when the sequence ends the leftover buffer is simply discarded (the
extractor returns only the emitted values). -/
theorem extractor_partial_safety (os : List Json) (oo : JObj) (p : Str)
    (frags : List (Option Str))
    (hcl : ∀ v ∈ os, isObjB v = true ∧ braceCleanB v = true)
    (hco : cleanObjB oo = true)
    (hpre : pre p (ser (.obj oo))) (hlt : p.length < (ser (.obj oo)).length)
    (htext : textOf frags = concatSer os ++ p) :
    parseJsonStream frags = os ∧ (List.foldl feed ([], []) frags).2 = p := by
  have hcl2 : ∀ v ∈ os ++ [Json.obj oo], isObjB v = true ∧ braceCleanB v = true := by
    intro v hv
    rcases List.mem_append.1 hv with h | h
    · exact hcl v h
    · have hveq := List.mem_singleton.1 h
      subst hveq
      exact ⟨rfl, by simpa [braceCleanB] using hco⟩
  have hpre2 : pre (textOf frags) (concatSer (os ++ [Json.obj oo])) := by
    rw [htext, concatSer_append]
    obtain ⟨tl, htl⟩ := hpre
    refine ⟨tl, ?_⟩
    rw [List.append_assoc, htl]
    congr 1
    simp [concatSer_cons, concatSer_nil]
  obtain ⟨r, hfold, heq, hstub⟩ := stream_invariant (os ++ [Json.obj oo]) hcl2 frags hpre2
  have hser1 : concatSer [Json.obj oo] = ser (.obj oo) := by
    simp [concatSer_cons, concatSer_nil]
  have hm : countComplete (os ++ [Json.obj oo]) (textOf frags).length = os.length := by
    rw [countComplete_add (os ++ [Json.obj oo]) os.length _ (by simp) ?hle]
    case hle =>
      rw [List.take_left, htext]
      simp
    rw [List.take_left, List.drop_left]
    have hsub : (textOf frags).length - (concatSer os).length = p.length := by
      rw [htext]
      simp
    rw [hsub]
    simp only [countComplete, hser1]
    rw [if_neg (by omega)]
    omega
  rw [hm] at hfold heq
  rw [List.take_left] at hfold heq
  have hr : r = p := by
    rw [htext] at heq
    exact (List.append_cancel_left heq).symm
  constructor
  · rw [parseJsonStream, hfold]
  · rw [hfold, hr]

/-- Witness for C9: the single fragment holding the truncated object text
is buffered in full and nothing is emitted. -/
theorem extractor_partial_safety_witness :
    cleanObjB (.cons (strL "a") (.num 1) .nil) = true ∧
    pre (strL "\x7b\"a\":1") (ser (.obj (.cons (strL "a") (.num 1) .nil))) ∧
    parseJsonStream [some (strL "\x7b\"a\":1")] = [] ∧
    (List.foldl feed ([], []) [some (strL "\x7b\"a\":1")]).2 = strL "\x7b\"a\":1" := by
  refine ⟨by decide, ⟨strL "\x7d", by decide⟩, ?_⟩
  have h := extractor_partial_safety [] (.cons (strL "a") (.num 1) .nil) (strL "\x7b\"a\":1")
    [some (strL "\x7b\"a\":1")] (by decide) (by decide) ⟨strL "\x7d", by decide⟩
    (by decide) (by decide)
  exact h

/-! ## Session and artifact state

The data model of the application source (`types.ts` is not in the
repository snapshot, but every field below is read or written by the
source under verification, from which the shapes are taken). -/

/-- Lifecycle status of one artifact. -/
inductive AStatus where
  | streaming : AStatus
  | complete : AStatus
  | error : AStatus
deriving DecidableEq

/-- One generated visual variant. `styleName` is typed `Json` because the
source assigns it directly from a `JSON.parse` result without a runtime
check. -/
structure Artifact where
  id : Str
  styleName : Json
  html : Str
  status : AStatus
deriving DecidableEq

/-- One user request and its batch of artifacts. -/
structure Session where
  id : Str
  prompt : Str
  timestamp : Nat
  artifacts : List Artifact
deriving DecidableEq

/-- A persisted snapshot of an artifact (`handleSaveArtifact`). -/
structure SavedArtifact where
  id : Str
  styleName : Json
  html : Str
  status : AStatus
  prompt : Str
  savedAt : Nat
deriving DecidableEq

/-! ## Streaming state updates (`generateArtifact` and `handleSendMessage`)

Each React `setSessions(prev => ...)` functional update in the source is a
pure function of the previous session list and is embedded as such. -/

/-- The incremental update published for every received text chunk
(source lines 401-408): locate the session by id, the artifact by id, and
replace only that artifact's `html`. -/
def applyIncremental (sessionId artifactId : Str) (accumulatedHtml : Str)
    (sessions : List Session) : List Session :=
  sessions.map fun sess =>
    if sess.id = sessionId then
      { sess with artifacts := sess.artifacts.map fun art =>
          if art.id = artifactId then { art with html := accumulatedHtml } else art }
    else sess

/-- The final update on stream completion (source lines 417-424): replace
the addressed artifact's `html` with the normalized text and set its
status to `complete` when the text is nonempty, `error` otherwise
(JavaScript string truthiness). -/
def applyFinal (sessionId artifactId : Str) (finalHtml : Str)
    (sessions : List Session) : List Session :=
  sessions.map fun sess =>
    if sess.id = sessionId then
      { sess with artifacts := sess.artifacts.map fun art =>
          if art.id = artifactId then
            { art with html := finalHtml,
                       status := if finalHtml = [] then .error else .complete }
          else art }
    else sess

/-- Indexed style assignment used by `applyStyles`; `undefined` (a label
index beyond the parsed list, unreachable for the 3-artifact sessions the
source creates) is modelled as `Json.null`. -/
def applyStylesArts (labels : List Json) : Nat → List Artifact → List Artifact
  | _, [] => []
  | i, a :: t =>
    { a with styleName := (labels.get? i).getD .null } :: applyStylesArts labels (i + 1) t

/-- The style-name update after direction resolution (source lines
375-384): locate the session by id and overwrite each artifact's
`styleName` with the label of the same index. -/
def applyStyles (sessionId : Str) (labels : List Json)
    (sessions : List Session) : List Session :=
  sessions.map fun s =>
    if s.id = sessionId then { s with artifacts := applyStylesArts labels 0 s.artifacts }
    else s

theorem map_eq_self {α : Type} (l : List α) (f : α → α) (hf : ∀ a ∈ l, f a = a) :
    l.map f = l := by
  calc l.map f = l.map id := List.map_congr_left hf
    _ = l := List.map_id l

theorem applyIncremental_twice (sid a1 a2 : Str) (h1 h2 : Str) (ss : List Session)
    (hne : a1 ≠ a2) :
    applyIncremental sid a2 h2 (applyIncremental sid a1 h1 ss)
      = ss.map (fun sess =>
          if sess.id = sid then
            { sess with artifacts := sess.artifacts.map fun art =>
                if art.id = a1 then { art with html := h1 }
                else if art.id = a2 then { art with html := h2 }
                else art }
          else sess) := by
  unfold applyIncremental
  rw [List.map_map]
  apply List.map_congr_left
  intro sess _
  by_cases hs : sess.id = sid
  · simp only [Function.comp, hs, if_pos]
    rw [List.map_map]
    have harts : ∀ art ∈ sess.artifacts,
        ((fun art => if art.id = a2 then { art with html := h2 } else art) ∘
         (fun art => if art.id = a1 then { art with html := h1 } else art)) art
        = (if art.id = a1 then { art with html := h1 }
           else if art.id = a2 then { art with html := h2 } else art) := by
      intro art _
      have hne2 : ¬ a2 = a1 := fun hh => hne hh.symm
      by_cases ha1 : art.id = a1
      · simp [Function.comp, ha1, hne]
      · by_cases ha2 : art.id = a2 <;> simp [Function.comp, ha1, ha2, hne2]
    rw [List.map_congr_left harts]
  · simp [Function.comp, hs]

/-- C2: two incremental streaming updates addressed (by session id and
artifact id) to two different artifacts commute, and applying both yields
the state in which each addressed artifact carries its own updated html
and every other field, artifact and session is unchanged. -/
theorem patch_isolation (sid a1 a2 : Str) (h1 h2 : Str) (ss : List Session)
    (hne : a1 ≠ a2) :
    applyIncremental sid a2 h2 (applyIncremental sid a1 h1 ss)
      = applyIncremental sid a1 h1 (applyIncremental sid a2 h2 ss) ∧
    ∀ i : Nat, (applyIncremental sid a2 h2 (applyIncremental sid a1 h1 ss))[i]?
      = Option.map (fun sess : Session =>
          if sess.id = sid then
            { sess with artifacts := sess.artifacts.map fun art =>
                if art.id = a1 then { art with html := h1 }
                else if art.id = a2 then { art with html := h2 }
                else art }
          else sess) ss[i]? := by
  constructor
  · rw [applyIncremental_twice sid a1 a2 h1 h2 ss hne,
      applyIncremental_twice sid a2 a1 h2 h1 ss hne.symm]
    apply List.map_congr_left
    intro sess _
    by_cases hs : sess.id = sid
    · simp only [hs, if_pos]
      congr 1
      apply List.map_congr_left
      intro art _
      have hne2 : ¬ a2 = a1 := fun hh => hne hh.symm
      by_cases ha1 : art.id = a1
      · have hna2 : ¬ art.id = a2 := by rw [ha1]; exact hne
        simp [ha1, hna2, hne, hne2]
      · by_cases ha2 : art.id = a2 <;> simp [ha1, ha2, hne, hne2]
    · simp [hs]
  · intro i
    rw [applyIncremental_twice sid a1 a2 h1 h2 ss hne, List.getElem?_map]

/-- Witness for C2 at a concrete two-artifact session. -/
theorem patch_isolation_witness :
    (strL "a1" ≠ strL "a2") ∧
    applyIncremental (strL "s") (strL "a2") (strL "<q>")
        (applyIncremental (strL "s") (strL "a1") (strL "<p>")
          [⟨strL "s", strL "prompt", 0,
            [⟨strL "a1", .str (strL "x"), [], .streaming⟩,
             ⟨strL "a2", .str (strL "y"), [], .streaming⟩]⟩])
      = applyIncremental (strL "s") (strL "a1") (strL "<p>")
          (applyIncremental (strL "s") (strL "a2") (strL "<q>")
            [⟨strL "s", strL "prompt", 0,
              [⟨strL "a1", .str (strL "x"), [], .streaming⟩,
               ⟨strL "a2", .str (strL "y"), [], .streaming⟩]⟩]) := by
  exact ⟨by decide, (patch_isolation (strL "s") (strL "a1") (strL "a2") (strL "<p>")
    (strL "<q>") _ (by decide)).1⟩

/-- C3: a streaming update (incremental, final, or the style-resolution
update) addressed to a session id that no longer occurs in the history is
a no-op: the whole session list is returned unchanged, no session is
created, and no error can arise (the functions are total). -/
theorem orphan_drop (sid aid : Str) (h fh : Str) (labels : List Json) (ss : List Session)
    (habs : ∀ s ∈ ss, s.id ≠ sid) :
    applyIncremental sid aid h ss = ss ∧ applyFinal sid aid fh ss = ss ∧
    applyStyles sid labels ss = ss := by
  refine ⟨?_, ?_, ?_⟩
  · exact map_eq_self ss _ (fun s hs => by simp [habs s hs])
  · exact map_eq_self ss _ (fun s hs => by simp [habs s hs])
  · exact map_eq_self ss _ (fun s hs => by simp [habs s hs])

/-- Witness for C3: an update addressed to a vanished session id leaves a
one-session history untouched. -/
theorem orphan_drop_witness :
    (∀ s ∈ ([⟨strL "s1", strL "p", 0, []⟩] : List Session), s.id ≠ strL "gone") ∧
    applyIncremental (strL "gone") (strL "a") (strL "<p>") [⟨strL "s1", strL "p", 0, []⟩]
      = [⟨strL "s1", strL "p", 0, []⟩] ∧
    applyFinal (strL "gone") (strL "a") (strL "<p>") [⟨strL "s1", strL "p", 0, []⟩]
      = [⟨strL "s1", strL "p", 0, []⟩] := by
  refine ⟨by decide, ?_, ?_⟩
  · exact (orphan_drop (strL "gone") (strL "a") (strL "<p>") (strL "<p>") []
      [⟨strL "s1", strL "p", 0, []⟩] (by decide)).1
  · exact (orphan_drop (strL "gone") (strL "a") (strL "<p>") (strL "<p>") []
      [⟨strL "s1", strL "p", 0, []⟩] (by decide)).2.1

/-! ## Completion-time normalization (`generateArtifact`, source lines 412-415)

On stream completion the accumulated text is trimmed, a leading
 ` ```html ` marker is stripped if present, then (on the result) a leading
 ` ``` ` marker is stripped if present, a trailing ` ``` ` marker is
stripped if present, and the cut edges are re-trimmed. Note the two
leading-marker checks are two consecutive `if` statements in the source,
not an `else if`. -/

/-- JavaScript `trimStart`. -/
def jsTrimStart (s : Str) : Str := s.dropWhile isWsC

/-- JavaScript `trimEnd`. -/
def jsTrimEnd (s : Str) : Str := (s.reverse.dropWhile isWsC).reverse

/-- JavaScript `trim`. -/
def jsTrim (s : Str) : Str := jsTrimEnd (jsTrimStart s)

/-- The seven-character fence marker `` ```html ``. -/
def fenceHtml : Str := [btick, btick, btick, 'h', 't', 'm', 'l']

/-- The three-character fence marker `` ``` ``. -/
def fence : Str := [btick, btick, btick]

/-- Normalization of the accumulated text at stream completion, a direct
embedding of source lines 412-415. -/
def normalizeHtml (accumulatedHtml : Str) : Str :=
  let f1 := jsTrim accumulatedHtml
  let f2 := if fenceHtml.isPrefixOf f1 then jsTrimStart (f1.drop 7) else f1
  let f3 := if fence.isPrefixOf f2 then jsTrimStart (f2.drop 3) else f2
  if fence.isSuffixOf f3 then jsTrimEnd (f3.take (f3.length - 3)) else f3

/-- Modelled from the spec: the normalization as the specification words
it — strip one leading code-fence marker if present (` ```html ` or
` ``` `), strip one trailing marker if present, trim. Used only to compare
with the source's `normalizeHtml`. -/
def specNormalize (s : Str) : Str :=
  let f1 := jsTrim s
  let f2 := if fenceHtml.isPrefixOf f1 then jsTrimStart (f1.drop 7)
            else if fence.isPrefixOf f1 then jsTrimStart (f1.drop 3) else f1
  if fence.isSuffixOf f2 then jsTrimEnd (f2.take (f2.length - 3)) else f2

/-- Suffix relation on character lists. -/
def suf (a b : Str) : Prop := ∃ t, t ++ a = b

theorem isPrefixOf_pre (a : Str) : ∀ b : Str, a.isPrefixOf b = true ↔ pre a b := by
  induction a with
  | nil =>
    intro b
    simp only [List.isPrefixOf]
    exact ⟨fun _ => ⟨b, rfl⟩, fun _ => trivial⟩
  | cons x a' ih =>
    intro b
    cases b with
    | nil =>
      simp only [List.isPrefixOf]
      constructor
      · intro h; exact absurd h (by simp)
      · intro ⟨t, ht⟩; exact absurd ht (by simp)
    | cons y b' =>
      simp only [List.isPrefixOf, Bool.and_eq_true, beq_iff_eq]
      rw [ih b']
      constructor
      · intro ⟨hxy, t, ht⟩
        exact ⟨t, by rw [List.cons_append, hxy, ht]⟩
      · intro ⟨t, ht⟩
        rw [List.cons_append, List.cons_eq_cons] at ht
        exact ⟨ht.1, t, ht.2⟩

theorem isSuffixOf_suf (a b : Str) : a.isSuffixOf b = true ↔ suf a b := by
  rw [List.isSuffixOf, isPrefixOf_pre]
  constructor
  · intro ⟨t, ht⟩
    refine ⟨t.reverse, ?_⟩
    have h2 := congrArg List.reverse ht
    rw [List.reverse_append, List.reverse_reverse, List.reverse_reverse] at h2
    exact h2
  · intro ⟨t, ht⟩
    refine ⟨t.reverse, ?_⟩
    rw [← ht, List.reverse_append]

theorem jsTrimStart_btick (X : Str) : jsTrimStart (btick :: X) = btick :: X := by
  simp [jsTrimStart, List.dropWhile_cons, show isWsC btick = false by decide]

theorem jsTrimEnd_append_fence (Y : Str) : jsTrimEnd (Y ++ fence) = Y ++ fence := by
  show ((Y ++ fence).reverse.dropWhile isWsC).reverse = Y ++ fence
  rw [List.reverse_append]
  have h1 : fence.reverse ++ Y.reverse = btick :: ([btick, btick] ++ Y.reverse) := rfl
  rw [h1, List.dropWhile_cons]
  rw [show (isWsC btick) = false by decide]
  show (btick :: ([btick, btick] ++ Y.reverse)).reverse = Y ++ fence
  rw [← h1, ← List.reverse_append, List.reverse_reverse]

theorem jsTrimStart_append (a b : Str) :
    jsTrimStart (a ++ b)
      = if jsTrimStart a = [] then jsTrimStart b else jsTrimStart a ++ b := by
  induction a with
  | nil => simp [jsTrimStart]
  | cons c a' ih =>
    show (List.dropWhile isWsC (c :: (a' ++ b)))
      = if jsTrimStart (c :: a') = [] then jsTrimStart b else jsTrimStart (c :: a') ++ b
    rw [List.dropWhile_cons]
    by_cases hc : isWsC c = true
    · rw [if_pos hc]
      show jsTrimStart (a' ++ b) = _
      rw [ih]
      have h2 : jsTrimStart (c :: a') = jsTrimStart a' := by
        simp [jsTrimStart, List.dropWhile_cons, hc]
      rw [h2]
    · rw [Bool.not_eq_true] at hc
      rw [if_neg (by simp [hc])]
      have h2 : jsTrimStart (c :: a') = c :: a' := by
        simp [jsTrimStart, List.dropWhile_cons, hc]
      rw [h2, if_neg (by simp)]
      rfl

theorem jsTrimEnd_nil : jsTrimEnd [] = [] := rfl

theorem jsTrim_of_nil_start (s : Str) (h : jsTrimStart s = []) : jsTrim s = [] := by
  rw [jsTrim, h, jsTrimEnd_nil]

theorem fence_not_prefix_cons (c : Char) (X : Str) (hc : c ≠ btick) :
    fence.isPrefixOf (c :: X) = false := by
  cases hres : fence.isPrefixOf (c :: X) with
  | false => rfl
  | true =>
    obtain ⟨t, ht⟩ := (isPrefixOf_pre _ _).1 hres
    rw [show fence = btick :: [btick, btick] from rfl, List.cons_append,
      List.cons_eq_cons] at ht
    exact absurd ht.1.symm hc

theorem jsTrim_fence_wrapped (pre7 : Str) (inner : Str)
    (hhead : ∃ Z, pre7 ++ inner = btick :: Z) :
    jsTrim ((pre7 ++ inner) ++ fence) = (pre7 ++ inner) ++ fence := by
  obtain ⟨Z, hZ⟩ := hhead
  show jsTrimEnd (jsTrimStart ((pre7 ++ inner) ++ fence)) = _
  rw [hZ, List.cons_append, jsTrimStart_btick, ← List.cons_append, ← hZ,
    jsTrimEnd_append_fence]

theorem trimStart_inner_fence_nil (inner : Str) (hts : jsTrimStart inner = []) :
    jsTrimStart (inner ++ fence) = fence := by
  rw [jsTrimStart_append, hts, if_pos rfl]
  exact jsTrimStart_btick [btick, btick]

theorem trimStart_inner_fence_cons (inner : Str) (c : Char) (rest2 : Str)
    (hts : jsTrimStart inner = c :: rest2) :
    jsTrimStart (inner ++ fence) = c :: (rest2 ++ fence) := by
  rw [jsTrimStart_append, hts, if_neg (by simp)]
  rfl

theorem strip_suffix_nil_inner (inner : Str) (hts : jsTrimStart inner = []) :
    (if List.isSuffixOf fence fence = true then
       jsTrimEnd (fence.take (fence.length - 3))
     else fence) = jsTrim inner := by
  rw [if_pos (by decide), show fence.take (fence.length - 3) = [] from by decide,
    jsTrimEnd_nil, jsTrim_of_nil_start inner hts]

theorem strip_suffix_cons_inner (inner : Str) (c : Char) (rest2 : Str)
    (hts : jsTrimStart inner = c :: rest2) :
    (if List.isSuffixOf fence (c :: (rest2 ++ fence)) = true then
       jsTrimEnd ((c :: (rest2 ++ fence)).take ((c :: (rest2 ++ fence)).length - 3))
     else c :: (rest2 ++ fence)) = jsTrim inner := by
  have hsuf : List.isSuffixOf fence (c :: (rest2 ++ fence)) = true :=
    (isSuffixOf_suf _ _).2 ⟨c :: rest2, by rw [List.cons_append]⟩
  rw [if_pos hsuf]
  have hlen : (c :: (rest2 ++ fence)).length - 3 = (c :: rest2).length := by
    simp [fence]
  rw [hlen]
  have htake : (c :: (rest2 ++ fence)).take (c :: rest2).length = c :: rest2 := by
    rw [show c :: (rest2 ++ fence) = (c :: rest2) ++ fence from rfl, List.take_left]
  rw [htake, ← hts]
  rfl

/-- Counterexample for C5: on accumulated text `` ```html``` x``` `` the
source strips two leading markers (first ` ```html `, then ` ``` `),
producing `x`, while the claim's single leading-marker normalization
produces `` ``` x ``. -/
theorem normalize_counterexample :
    normalizeHtml (strL "```html``` x```") = strL "x" ∧
    specNormalize (strL "```html``` x```") = strL "``` x" ∧
    normalizeHtml (strL "```html``` x```") ≠ specNormalize (strL "```html``` x```") := by
  exact ⟨by decide, by decide, by decide⟩

/-- C5 (amended): at stream completion the accumulated text is trimmed; a
leading ` ```html ` marker is stripped if present, then additionally a
leading ` ``` ` marker if one is (still) present; a trailing ` ``` `
marker is stripped if present; the cut edges are re-trimmed. Text whose
trim carries no leading or trailing fence marker is returned trimmed
unchanged; fence-wrapped text whose inner content does not itself begin
with a backtick (after leading whitespace) yields exactly the trimmed
inner content; and the final update sets the artifact's status to
`complete` exactly when the normalized text is nonempty, `error` when it
is empty. -/
theorem finalize_normalization (s inner : Str) (sid aid : Str) (ss : List Session)
    (hnp : fence.isPrefixOf (jsTrim s) = false)
    (hns : fence.isSuffixOf (jsTrim s) = false)
    (hq : (jsTrimStart inner).head? ≠ some btick)
    (hh : (strL "html").isPrefixOf (inner ++ fence) = false) :
    normalizeHtml s = jsTrim s ∧
    normalizeHtml ((fenceHtml ++ inner) ++ fence) = jsTrim inner ∧
    normalizeHtml ((fence ++ inner) ++ fence) = jsTrim inner ∧
    ∀ t : Str, ∀ i : Nat, (applyFinal sid aid (normalizeHtml t) ss)[i]?
      = Option.map (fun sess : Session =>
          if sess.id = sid then
            { sess with artifacts := sess.artifacts.map fun art =>
                if art.id = aid then
                  { art with html := normalizeHtml t,
                             status := if normalizeHtml t = [] then .error
                                       else .complete }
                else art }
          else sess) ss[i]? := by
  refine ⟨?_, ?_, ?_, ?_⟩
  · have hf1 : fenceHtml.isPrefixOf (jsTrim s) = false := by
      cases hres : fenceHtml.isPrefixOf (jsTrim s) with
      | false => rfl
      | true =>
        exfalso
        have h1 : pre fence (jsTrim s) :=
          pre_trans _ _ _ ⟨strL "html", by decide⟩ ((isPrefixOf_pre _ _).1 hres)
        rw [(isPrefixOf_pre _ _).2 h1] at hnp
        exact absurd hnp (by simp)
    show (let f1 := jsTrim s
          let f2 := if fenceHtml.isPrefixOf f1 then jsTrimStart (f1.drop 7) else f1
          let f3 := if fence.isPrefixOf f2 then jsTrimStart (f2.drop 3) else f2
          if fence.isSuffixOf f3 then jsTrimEnd (f3.take (f3.length - 3)) else f3)
        = jsTrim s
    simp only
    rw [hf1]
    simp only [Bool.false_eq_true, if_false]
    rw [hnp]
    simp only [Bool.false_eq_true, if_false]
    rw [hns]
    simp only [Bool.false_eq_true, if_false]
  · have hj1 : jsTrim ((fenceHtml ++ inner) ++ fence) = (fenceHtml ++ inner) ++ fence :=
      jsTrim_fence_wrapped fenceHtml inner ⟨[btick, btick, 'h', 't', 'm', 'l'] ++ inner, rfl⟩
    have hp1 : fenceHtml.isPrefixOf ((fenceHtml ++ inner) ++ fence) = true :=
      (isPrefixOf_pre _ _).2 ⟨inner ++ fence, by rw [List.append_assoc]⟩
    have hdrop : ((fenceHtml ++ inner) ++ fence).drop 7 = inner ++ fence := by
      rw [List.append_assoc, show (7 : Nat) = fenceHtml.length from rfl, List.drop_left]
    show (let f1 := jsTrim ((fenceHtml ++ inner) ++ fence)
          let f2 := if fenceHtml.isPrefixOf f1 then jsTrimStart (f1.drop 7) else f1
          let f3 := if fence.isPrefixOf f2 then jsTrimStart (f2.drop 3) else f2
          if fence.isSuffixOf f3 then jsTrimEnd (f3.take (f3.length - 3)) else f3)
        = jsTrim inner
    simp only
    rw [hj1, hp1]
    simp only [if_true]
    rw [hdrop]
    cases hts : jsTrimStart inner with
    | nil =>
      rw [trimStart_inner_fence_nil inner hts, jsTrim_of_nil_start inner hts]
      decide
    | cons c rest2 =>
      have hc : c ≠ btick := by
        intro he
        apply hq
        rw [hts, he]
        rfl
      rw [trimStart_inner_fence_cons inner c rest2 hts]
      rw [fence_not_prefix_cons c _ hc]
      simp only [Bool.false_eq_true, if_false]
      exact strip_suffix_cons_inner inner c rest2 hts
  · have hj1 : jsTrim ((fence ++ inner) ++ fence) = (fence ++ inner) ++ fence :=
      jsTrim_fence_wrapped fence inner ⟨[btick, btick] ++ inner, rfl⟩
    have hpf : fenceHtml.isPrefixOf ((fence ++ inner) ++ fence) = false := by
      cases hres : fenceHtml.isPrefixOf ((fence ++ inner) ++ fence) with
      | false => rfl
      | true =>
        exfalso
        obtain ⟨t, ht⟩ := (isPrefixOf_pre _ _).1 hres
        rw [show fenceHtml = fence ++ strL "html" from rfl, List.append_assoc,
          List.append_assoc] at ht
        have h2 : pre (strL "html") (inner ++ fence) := ⟨t, List.append_cancel_left ht⟩
        rw [(isPrefixOf_pre _ _).2 h2] at hh
        exact absurd hh (by simp)
    have hp1 : fence.isPrefixOf ((fence ++ inner) ++ fence) = true :=
      (isPrefixOf_pre _ _).2 ⟨inner ++ fence, by rw [List.append_assoc]⟩
    have hdrop : ((fence ++ inner) ++ fence).drop 3 = inner ++ fence := by
      rw [List.append_assoc, show (3 : Nat) = fence.length from rfl, List.drop_left]
    show (let f1 := jsTrim ((fence ++ inner) ++ fence)
          let f2 := if fenceHtml.isPrefixOf f1 then jsTrimStart (f1.drop 7) else f1
          let f3 := if fence.isPrefixOf f2 then jsTrimStart (f2.drop 3) else f2
          if fence.isSuffixOf f3 then jsTrimEnd (f3.take (f3.length - 3)) else f3)
        = jsTrim inner
    simp only
    rw [hj1, hpf]
    simp only [Bool.false_eq_true, if_false]
    rw [hp1]
    simp only [if_true]
    rw [hdrop]
    cases hts : jsTrimStart inner with
    | nil =>
      rw [trimStart_inner_fence_nil inner hts]
      exact strip_suffix_nil_inner inner hts
    | cons c rest2 =>
      rw [trimStart_inner_fence_cons inner c rest2 hts]
      exact strip_suffix_cons_inner inner c rest2 hts
  · intro t i
    exact List.getElem?_map ..

/-- Witness for C5, at plain text with no fences and at a fence-wrapped
fragment. -/
theorem finalize_normalization_witness :
    fence.isPrefixOf (jsTrim (strL " <div>ok</div> ")) = false ∧
    normalizeHtml (strL " <div>ok</div> ") = jsTrim (strL " <div>ok</div> ") ∧
    normalizeHtml ((fenceHtml ++ strL "\n<p>hello</p>\n") ++ fence)
      = jsTrim (strL "\n<p>hello</p>\n") := by
  have h := finalize_normalization (strL " <div>ok</div> ") (strL "\n<p>hello</p>\n")
    (strL "s") (strL "a") [] (by decide) (by decide) (by decide) (by decide)
  exact ⟨by decide, h.1, h.2.1⟩

/-! ## Applying a variation (`applyVariation`, source lines 229-240) -/

/-- Index-matching artifact replacement used by `applyVariation`: the
artifact at the focused index gets the chosen html and is forced to
`complete`. -/
def applyVariationArts (j : Nat) (html : Str) : Nat → List Artifact → List Artifact
  | _, [] => []
  | k, art :: rest =>
    (if k = j then { art with html := html, status := .complete } else art)
      :: applyVariationArts j html (k + 1) rest

/-- Index-matching session replacement used by `applyVariation`. -/
def applyVariationSessions (curIdx : Int) (j : Nat) (html : Str) :
    Nat → List Session → List Session
  | _, [] => []
  | i, sess :: rest =>
    (if (i : Int) = curIdx then
       { sess with artifacts := applyVariationArts j html 0 sess.artifacts }
     else sess) :: applyVariationSessions curIdx j html (i + 1) rest

/-- `applyVariation`: a no-op when no artifact is focused; otherwise
replaces the focused artifact's html, forces its status to `complete`, and
closes the drawer (the variation view). The state is the session list
paired with the drawer's `isOpen` flag. -/
def applyVariation (curIdx : Int) (focus : Option Nat) (html : Str)
    (st : List Session × Bool) : List Session × Bool :=
  match focus with
  | none => st
  | some j => (applyVariationSessions curIdx j html 0 st.1, false)

theorem applyVariationArts_getElem (j : Nat) (html : Str) :
    ∀ (arts : List Artifact) (k0 k : Nat),
    (applyVariationArts j html k0 arts)[k]?
      = (arts[k]?).map (fun art =>
          if k0 + k = j then { art with html := html, status := .complete } else art) := by
  intro arts
  induction arts with
  | nil => intro k0 k; rfl
  | cons a rest ih =>
    intro k0 k
    cases k with
    | zero =>
      simp only [applyVariationArts, List.getElem?_cons_zero, Option.map_some', Nat.add_zero]
    | succ k' =>
      simp only [applyVariationArts, List.getElem?_cons_succ]
      rw [ih (k0 + 1) k']
      have h1 : k0 + 1 + k' = k0 + (k' + 1) := by omega
      rw [h1]

theorem applyVariationSessions_getElem (curIdx : Int) (j : Nat) (html : Str) :
    ∀ (ss : List Session) (i0 i : Nat),
    (applyVariationSessions curIdx j html i0 ss)[i]?
      = (ss[i]?).map (fun sess =>
          if ((i0 + i : Nat) : Int) = curIdx then
            { sess with artifacts := applyVariationArts j html 0 sess.artifacts }
          else sess) := by
  intro ss
  induction ss with
  | nil => intro i0 i; rfl
  | cons sess rest ih =>
    intro i0 i
    cases i with
    | zero =>
      simp only [applyVariationSessions, List.getElem?_cons_zero, Option.map_some',
        Nat.add_zero]
    | succ i' =>
      simp only [applyVariationSessions, List.getElem?_cons_succ]
      rw [ih (i0 + 1) i']
      have h1 : i0 + 1 + i' = i0 + (i' + 1) := by omega
      rw [h1]

theorem applyVariationArts_length (j : Nat) (html : Str) :
    ∀ (arts : List Artifact) (k0 : Nat),
    (applyVariationArts j html k0 arts).length = arts.length := by
  intro arts
  induction arts with
  | nil => intro k0; rfl
  | cons a rest ih =>
    intro k0
    simp only [applyVariationArts, List.length_cons, ih (k0 + 1)]

/-- C8: with a current session and a focused artifact, applying a chosen
variation with html `h` closes the variation view and produces a session
list in which exactly the focused artifact of the current session has
html `h` and status `complete`, while every other artifact, every other
session, and all non-artifact session fields are unchanged. -/
theorem apply_variation_spec (curIdx : Int) (j : Nat) (html : Str)
    (ss : List Session) (dOpen : Bool)
    (hcur : 0 ≤ curIdx) (hlt : curIdx.toNat < ss.length)
    (hj : j < (ss.get ⟨curIdx.toNat, hlt⟩).artifacts.length) :
    (applyVariation curIdx (some j) html (ss, dOpen)).2 = false ∧
    (∀ i k : Nat,
      ((applyVariation curIdx (some j) html (ss, dOpen)).1[i]?).bind
          (fun sess => sess.artifacts[k]?)
        = (ss[i]?).bind (fun sess => (sess.artifacts[k]?).map (fun art =>
            if (i : Int) = curIdx ∧ k = j then
              { art with html := html, status := .complete }
            else art))) ∧
    (∀ i : Nat,
      ((applyVariation curIdx (some j) html (ss, dOpen)).1[i]?).map
          (fun sess => (sess.id, sess.prompt, sess.timestamp, sess.artifacts.length))
        = (ss[i]?).map
            (fun sess => (sess.id, sess.prompt, sess.timestamp, sess.artifacts.length))) := by
  refine ⟨rfl, ?_, ?_⟩
  · intro i k
    show ((applyVariationSessions curIdx j html 0 ss)[i]?).bind
        (fun sess => sess.artifacts[k]?) = _
    rw [applyVariationSessions_getElem curIdx j html ss 0 i]
    cases hss : ss[i]? with
    | none => rfl
    | some sess =>
      simp only [Option.map_some', Option.bind_some]
      by_cases hi : ((0 + i : Nat) : Int) = curIdx
      · rw [if_pos hi]
        have hi2 : (i : Int) = curIdx := by
          rw [← hi]
          norm_num
        show (applyVariationArts j html 0 sess.artifacts)[k]? = _
        rw [applyVariationArts_getElem j html sess.artifacts 0 k]
        show _ = (sess.artifacts[k]?).map (fun art =>
          if (i : Int) = curIdx ∧ k = j then
            { art with html := html, status := .complete }
          else art)
        cases hak : sess.artifacts[k]? with
        | none => rfl
        | some art =>
          simp only [Option.map_some', Nat.zero_add]
          by_cases hk : k = j
          · rw [if_pos hk, if_pos ⟨hi2, hk⟩]
          · rw [if_neg hk, if_neg (by simp [hk])]
      · rw [if_neg hi]
        have hi2 : ¬ ((i : Int) = curIdx) := by
          intro h2
          apply hi
          rw [← h2]
          norm_num
        show sess.artifacts[k]? = (sess.artifacts[k]?).map (fun art =>
          if (i : Int) = curIdx ∧ k = j then
            { art with html := html, status := .complete }
          else art)
        cases hak : sess.artifacts[k]? with
        | none => rfl
        | some art =>
          simp only [Option.map_some']
          rw [if_neg (by simp [hi2])]
  · intro i
    show ((applyVariationSessions curIdx j html 0 ss)[i]?).map _ = _
    rw [applyVariationSessions_getElem curIdx j html ss 0 i]
    cases hss : ss[i]? with
    | none => rfl
    | some sess =>
      simp only [Option.map_some']
      by_cases hi : ((0 + i : Nat) : Int) = curIdx
      · rw [if_pos hi]
        show some (sess.id, sess.prompt, sess.timestamp,
          (applyVariationArts j html 0 sess.artifacts).length)
          = some (sess.id, sess.prompt, sess.timestamp, sess.artifacts.length)
        rw [applyVariationArts_length]
      · rw [if_neg hi]

/-- Witness for C8 at a concrete one-session, two-artifact state. -/
theorem apply_variation_spec_witness :
    ((0 : Int) ≤ 0) ∧
    ((applyVariation 0 (some 1) (strL "<div>X</div>")
        ([⟨strL "s", strL "p", 0,
           [⟨strL "a0", .str (strL "n0"), strL "<a>", .complete⟩,
            ⟨strL "a1", .str (strL "n1"), strL "<b>", .complete⟩]⟩], true)).2 = false) ∧
    (((applyVariation 0 (some 1) (strL "<div>X</div>")
        ([⟨strL "s", strL "p", 0,
           [⟨strL "a0", .str (strL "n0"), strL "<a>", .complete⟩,
            ⟨strL "a1", .str (strL "n1"), strL "<b>", .complete⟩]⟩], true)).1[0]?).bind
        (fun sess => sess.artifacts[1]?)
      = some ⟨strL "a1", .str (strL "n1"), strL "<div>X</div>", .complete⟩) := by
  have h := apply_variation_spec 0 1 (strL "<div>X</div>")
    [⟨strL "s", strL "p", 0,
      [⟨strL "a0", .str (strL "n0"), strL "<a>", .complete⟩,
       ⟨strL "a1", .str (strL "n1"), strL "<b>", .complete⟩]⟩] true
    (by decide) (by decide) (by decide)
  refine ⟨by decide, h.1, ?_⟩
  rw [h.2.1 0 1]
  decide

/-! ## Direction-label resolution (`handleSendMessage`, source lines 357-384) -/

/-- The match of the greedy regex over the response text: the span from
the first `[` to the last `]`, provided the first `[` precedes the last
`]`; `none` when the regex does not match. -/
def bracketMatch (s : Str) : Option Str :=
  match indexOfFrom s '[' 0, (indexOfFrom s.reverse ']' 0).map (fun k => s.length - 1 - k) with
  | some i, some jlast =>
    if i < jlast then some ((s.drop i).take (jlast + 1 - i)) else none
  | some _, none => none
  | none, _ => none

/-- The fixed fallback direction labels. -/
def fallbackStyles : List Json :=
  [.str (strL "Modern Minimal"), .str (strL "High-Tech Dark"), .str (strL "Organic Flow")]

/-- Resolution of the three direction labels from the response text
(source lines 357-373): parse the greedy bracket span; on no match, parse
failure, or fewer than 3 labels substitute the fallback trio; then take
the first 3. -/
def resolveStyles (styleText : Str) : List Json :=
  let generatedStyles :=
    match bracketMatch styleText with
    | some m =>
      match jsonParse m with
      | some (.arr xs) => jarrToList xs
      | _ => []
    | none => []
  let gs := if generatedStyles.length < 3 then fallbackStyles else generatedStyles
  gs.take 3

theorem applyStylesArts_getElem (labels : List Json) :
    ∀ (arts : List Artifact) (k0 k : Nat),
    (applyStylesArts labels k0 arts)[k]?
      = (arts[k]?).map (fun art =>
          { art with styleName := (labels.get? (k0 + k)).getD .null }) := by
  intro arts
  induction arts with
  | nil => intro k0 k; rfl
  | cons a rest ih =>
    intro k0 k
    cases k with
    | zero =>
      simp only [applyStylesArts, List.getElem?_cons_zero, Option.map_some', Nat.add_zero]
    | succ k' =>
      simp only [applyStylesArts, List.getElem?_cons_succ]
      rw [ih (k0 + 1) k']
      have h1 : k0 + 1 + k' = k0 + (k' + 1) := by omega
      rw [h1]

theorem resolve_take3_length (g : List Json) :
    ((if g.length < 3 then fallbackStyles else g).take 3).length = 3 := by
  by_cases h : g.length < 3
  · rw [if_pos h]
    rfl
  · rw [if_neg h]
    rw [List.length_take]
    omega

/-- Counterexample for C6: in the response text
`["a","b","c"] ["d","e","f"]` the first balanced JSON array substring
`["a","b","c"]` parses to exactly 3 labels, yet the source's greedy
candidate (first `[` to last `]`) fails to parse, so the fallback labels
are used instead of those three. -/
theorem resolve_styles_counterexample :
    resolveStyles (strL "[\"a\",\"b\",\"c\"] [\"d\",\"e\",\"f\"]") = fallbackStyles ∧
    jsonParse (strL "[\"a\",\"b\",\"c\"]")
      = some (.arr (.cons (.str (strL "a"))
          (.cons (.str (strL "b")) (.cons (.str (strL "c")) .nil)))) ∧
    strL "[\"a\",\"b\",\"c\"]" ++ strL " [\"d\",\"e\",\"f\"]"
      = strL "[\"a\",\"b\",\"c\"] [\"d\",\"e\",\"f\"]" ∧
    fallbackStyles ≠ [Json.str (strL "a"), .str (strL "b"), .str (strL "c")] := by
  exact ⟨by decide, by decide, by decide, by decide⟩

/-- C6 (amended): the candidate substring is the span from the first `[`
to the last `]` of the response text (the greedy regex match), not the
first balanced array substring. If no such span exists, or `JSON.parse`
of it fails, or it yields fewer than 3 labels, the fixed fallback labels
are used verbatim; otherwise exactly the first 3 parsed labels are used
(extras truncated); exactly 3 labels always result; and the labels are
applied in order to the addressed session's artifacts' `styleName`
fields, all other fields and sessions unchanged. -/
theorem resolve_styles_spec (t m : Str) (xs : JArr) (sid : Str) (ss : List Session) :
    (bracketMatch t = none → resolveStyles t = fallbackStyles) ∧
    (bracketMatch t = some m → jsonParse m = none → resolveStyles t = fallbackStyles) ∧
    (bracketMatch t = some m → jsonParse m = some (.arr xs) → (jarrToList xs).length < 3 →
      resolveStyles t = fallbackStyles) ∧
    (bracketMatch t = some m → jsonParse m = some (.arr xs) → 3 ≤ (jarrToList xs).length →
      resolveStyles t = (jarrToList xs).take 3) ∧
    (resolveStyles t).length = 3 ∧
    (∀ labels : List Json, ∀ i k : Nat,
      ((applyStyles sid labels ss)[i]?).bind (fun sess => sess.artifacts[k]?)
        = (ss[i]?).bind (fun sess => (sess.artifacts[k]?).map (fun art =>
            if sess.id = sid then { art with styleName := (labels.get? k).getD .null }
            else art))) := by
  refine ⟨?_, ?_, ?_, ?_, ?_, ?_⟩
  · intro h
    simp only [resolveStyles, h]
    rfl
  · intro h hp
    simp only [resolveStyles, h, hp]
    rfl
  · intro h hp hlen
    simp only [resolveStyles, h, hp]
    rw [if_pos hlen]
    rfl
  · intro h hp hlen
    simp only [resolveStyles, h, hp]
    rw [if_neg (by omega)]
  · simp only [resolveStyles]
    exact resolve_take3_length _
  · intro labels i k
    simp only [applyStyles]
    rw [List.getElem?_map]
    cases hss : ss[i]? with
    | none => rfl
    | some sess =>
      show (if sess.id = sid then
              { sess with artifacts := applyStylesArts labels 0 sess.artifacts }
            else sess).artifacts[k]?
        = (sess.artifacts[k]?).map (fun art =>
            if sess.id = sid then { art with styleName := (labels.get? k).getD .null }
            else art)
      by_cases hs : sess.id = sid
      · rw [if_pos hs]
        show (applyStylesArts labels 0 sess.artifacts)[k]? = _
        rw [applyStylesArts_getElem labels sess.artifacts 0 k]
        cases hak : sess.artifacts[k]? with
        | none => rfl
        | some art =>
          simp only [Option.map_some', Nat.zero_add]
          rw [if_pos hs]
      · rw [if_neg hs]
        cases hak : sess.artifacts[k]? with
        | none => rfl
        | some art =>
          simp only [Option.map_some']
          rw [if_neg hs]

/-- Witness for C6, instantiating the spec scenario: response text
`not json` has no bracket span, so the fallback labels are used
verbatim. -/
theorem resolve_styles_spec_witness :
    bracketMatch (strL "not json") = none ∧
    resolveStyles (strL "not json") = fallbackStyles := by
  exact ⟨by decide,
    (resolve_styles_spec (strL "not json") [] .nil (strL "s") []).1 (by decide)⟩

/-! ## Batch generation under failure (`generateArtifact`, `Promise.all`)

Each of the 3 generators launched by `handleSendMessage` runs the body of
`generateArtifact`: on every received chunk it publishes an incremental
update carrying the accumulated html (source lines 397-410), and on
normal stream completion it publishes a final update carrying the
normalized html (source lines 412-424). A transport or protocol error is
caught by the local `try`/`catch` of lines 387-428 and only logged, so a
failing generator's event trace simply stops after its incremental
updates: no final update is published and no exception escapes to the
batch join. `await Promise.all(...)` (line 431) runs the generators
concurrently — their published updates interleave arbitrarily — and since
none of the generator promises can reject, it settles exactly when every
generator has settled; `finally` (line 436) then clears the loading
flag. -/

/-- One state update published by a generator: an incremental html
update, or the final normalize-and-set-status update. -/
inductive GenEvent where
  | incr (artifactId : Str) (accumulatedHtml : Str) : GenEvent
  | fin (artifactId : Str) (finalHtml : Str) : GenEvent

/-- The artifact id an event is addressed to. -/
def targetOf : GenEvent → Str
  | .incr aid _ => aid
  | .fin aid _ => aid

/-- Applying one published event to the session list: `incr` is the
incremental update of source lines 401-408, `fin` the final update of
lines 417-424. -/
def applyEvent (sessionId : Str) (e : GenEvent) (ss : List Session) : List Session :=
  match e with
  | .incr aid h => applyIncremental sessionId aid h ss
  | .fin aid h => applyFinal sessionId aid h ss

/-- Applying a sequence of published events in order. -/
def runEvents (sessionId : Str) (evs : List GenEvent) (ss : List Session) : List Session :=
  evs.foldl (fun s e => applyEvent sessionId e s) ss

/-- The state the batch manipulates: the session history and the loading
flag. -/
structure BatchState where
  sessions : List Session
  isLoading : Bool
deriving DecidableEq

/-- `await Promise.all(...)` followed by `finally setIsLoading(false)`
(source lines 431-437): every event of the batch is processed, and only
then is the loading flag cleared. -/
def runBatch (sessionId : Str) (evs : List GenEvent) (st : BatchState) : BatchState :=
  { sessions := runEvents sessionId evs st.sessions, isLoading := false }

/-- The effect of a single event on a single artifact. -/
def applyEvtArt (e : GenEvent) (art : Artifact) : Artifact :=
  match e with
  | .incr aid h => if art.id = aid then { art with html := h } else art
  | .fin aid h =>
    if art.id = aid then
      { art with html := h, status := if h = [] then .error else .complete }
    else art

/-- Folding a list of events over a single artifact. -/
def foldArt (evs : List GenEvent) (art : Artifact) : Artifact :=
  evs.foldl (fun a e => applyEvtArt e a) art

/-- The incremental updates published while chunks arrive, starting from
already-accumulated text `acc` (source lines 396-410). -/
def incrEvents (aid : Str) (acc : Str) : List Str → List GenEvent
  | [] => []
  | c :: t => .incr aid (acc ++ c) :: incrEvents aid (acc ++ c) t

/-- The full event trace of a generator whose stream delivers `chunks`
and then completes normally. -/
def succTrace (aid : Str) (chunks : List Str) : List GenEvent :=
  incrEvents aid [] chunks ++ [.fin aid (normalizeHtml (sconcat chunks))]

/-- The event trace of a generator whose stream delivers `chunks` and
then fails: the error is caught by the local catch of lines 426-428, so
the trace ends with no final update. -/
def failTrace (aid : Str) (chunks : List Str) : List GenEvent :=
  incrEvents aid [] chunks

/-- Arbitrary interleaving of two sequences, preserving the order within
each. -/
inductive Interleave {α : Type} : List α → List α → List α → Prop where
  | nil : Interleave [] [] []
  | left (a : α) (as bs cs : List α) :
      Interleave as bs cs → Interleave (a :: as) bs (a :: cs)
  | right (b : α) (as bs cs : List α) :
      Interleave as bs cs → Interleave as (b :: bs) (b :: cs)

theorem interleave_nil_left {α : Type} (bs : List α) : Interleave [] bs bs := by
  induction bs with
  | nil => exact .nil
  | cons b bs ih => exact .right b _ _ _ ih

theorem interleave_append {α : Type} (as bs : List α) : Interleave as bs (as ++ bs) := by
  induction as with
  | nil => exact interleave_nil_left bs
  | cons a as ih => exact .left a _ _ _ ih

theorem interleave_eq_of_right_nil {α : Type} {as bs cs : List α}
    (h : Interleave as bs cs) (hb : bs = []) : cs = as := by
  induction h with
  | nil => rfl
  | left a as bs cs h ih => rw [ih hb]
  | right b as bs cs h ih => exact absurd hb (List.cons_ne_nil b bs)

theorem interleave_eq_of_left_nil {α : Type} {as bs cs : List α}
    (h : Interleave as bs cs) (ha : as = []) : cs = bs := by
  induction h with
  | nil => rfl
  | left a as bs cs h ih => exact absurd ha (List.cons_ne_nil a as)
  | right b as bs cs h ih => rw [ih ha]

theorem interleave_filter {α : Type} (p : α → Bool) {as bs cs : List α}
    (h : Interleave as bs cs) :
    Interleave (as.filter p) (bs.filter p) (cs.filter p) := by
  induction h with
  | nil => exact .nil
  | left a as bs cs h ih =>
    by_cases hp : p a = true
    · rw [List.filter_cons, List.filter_cons, hp]
      simp only [if_true]
      exact .left a _ _ _ ih
    · rw [List.filter_cons, List.filter_cons, if_neg hp, if_neg hp]
      exact ih
  | right b as bs cs h ih =>
    by_cases hp : p b = true
    · rw [List.filter_cons, List.filter_cons, hp]
      simp only [if_true]
      exact .right b _ _ _ ih
    · rw [List.filter_cons, List.filter_cons, if_neg hp, if_neg hp]
      exact ih

theorem applyEvent_map (sid : Str) (e : GenEvent) (ss : List Session) :
    applyEvent sid e ss = ss.map (fun sess =>
      if sess.id = sid then
        { sess with artifacts := sess.artifacts.map (applyEvtArt e) }
      else sess) := by
  cases e <;> rfl

theorem runEvents_map (sid : Str) (evs : List GenEvent) :
    ∀ ss : List Session, runEvents sid evs ss = ss.map (fun sess =>
      if sess.id = sid then
        { sess with artifacts := sess.artifacts.map (foldArt evs) }
      else sess) := by
  induction evs with
  | nil =>
    intro ss
    show ss = _
    refine (map_eq_self ss _ ?_).symm
    intro sess _
    by_cases hs : sess.id = sid
    · rw [if_pos hs, map_eq_self sess.artifacts (foldArt []) (fun a _ => rfl)]
    · rw [if_neg hs]
  | cons e evs ih =>
    intro ss
    show runEvents sid evs (applyEvent sid e ss) = _
    rw [ih, applyEvent_map, List.map_map]
    refine List.map_congr_left ?_
    intro sess _
    simp only [Function.comp_apply]
    by_cases hs : sess.id = sid
    · rw [if_pos hs]
      rw [if_pos (show ({ sess with artifacts := sess.artifacts.map (applyEvtArt e) } : Session).id = sid from hs)]
      rw [if_pos hs]
      show ({ sess with artifacts := (sess.artifacts.map (applyEvtArt e)).map (foldArt evs) } : Session) = _
      rw [List.map_map]
      exact congrArg (fun x => { sess with artifacts := x })
        (List.map_congr_left (fun a _ => rfl))
    · simp only [if_neg hs]

theorem applyEvtArt_ne (e : GenEvent) (art : Artifact) (h : art.id ≠ targetOf e) :
    applyEvtArt e art = art := by
  cases e with
  | incr aid s => exact if_neg h
  | fin aid s => exact if_neg h

theorem applyEvtArt_id (e : GenEvent) (art : Artifact) :
    (applyEvtArt e art).id = art.id := by
  cases e with
  | incr aid s =>
    show (if art.id = aid then { art with html := s } else art).id = art.id
    split <;> rfl
  | fin aid s =>
    show (if art.id = aid then
        { art with html := s, status := if s = [] then .error else .complete }
      else art).id = art.id
    split <;> rfl

theorem foldArt_filter (a : Str) (evs : List GenEvent) : ∀ (art : Artifact), art.id = a →
    foldArt evs art = foldArt (evs.filter (fun e => decide (targetOf e = a))) art := by
  induction evs with
  | nil => intro art _; rfl
  | cons e evs ih =>
    intro art ha
    by_cases ht : targetOf e = a
    · have hf : (e :: evs).filter (fun e => decide (targetOf e = a))
          = e :: evs.filter (fun e => decide (targetOf e = a)) := by
        rw [List.filter_cons, if_pos (decide_eq_true ht)]
      rw [hf]
      show foldArt evs (applyEvtArt e art)
          = foldArt (evs.filter (fun e => decide (targetOf e = a))) (applyEvtArt e art)
      exact ih (applyEvtArt e art) (by rw [applyEvtArt_id]; exact ha)
    · have hne : art.id ≠ targetOf e := by rw [ha]; exact fun hh => ht hh.symm
      have hf : (e :: evs).filter (fun e => decide (targetOf e = a))
          = evs.filter (fun e => decide (targetOf e = a)) := by
        rw [List.filter_cons, if_neg (by simpa using ht)]
      rw [hf]
      show foldArt evs (applyEvtArt e art) = _
      rw [applyEvtArt_ne e art hne]
      exact ih art ha

theorem targetOf_incrEvents (aid : Str) : ∀ (cs : List Str) (acc : Str),
    ∀ e ∈ incrEvents aid acc cs, targetOf e = aid := by
  intro cs
  induction cs with
  | nil =>
    intro acc e he
    exact absurd he (List.not_mem_nil e)
  | cons c t ih =>
    intro acc e he
    rcases List.mem_cons.mp he with h1 | h2
    · rw [h1]; rfl
    · exact ih (acc ++ c) e h2

theorem targetOf_succTrace (aid : Str) (cs : List Str) :
    ∀ e ∈ succTrace aid cs, targetOf e = aid := by
  intro e he
  rcases List.mem_append.mp he with h1 | h2
  · exact targetOf_incrEvents aid cs [] e h1
  · rw [List.mem_singleton.mp h2]
    rfl

theorem targetOf_failTrace (aid : Str) (cs : List Str) :
    ∀ e ∈ failTrace aid cs, targetOf e = aid :=
  fun e he => targetOf_incrEvents aid cs [] e he

theorem filter_target_self (a : Str) (t : List GenEvent) (h : ∀ x ∈ t, targetOf x = a) :
    t.filter (fun e => decide (targetOf e = a)) = t :=
  List.filter_eq_self.mpr (fun x hx => decide_eq_true (h x hx))

theorem filter_target_nil (a b : Str) (hne : b ≠ a) (t : List GenEvent)
    (h : ∀ x ∈ t, targetOf x = b) :
    t.filter (fun e => decide (targetOf e = a)) = [] := by
  rw [List.filter_eq_nil_iff]
  intro x hx
  simp only [decide_eq_true_eq]
  rw [h x hx]
  exact hne

theorem foldArt_append (xs ys : List GenEvent) (art : Artifact) :
    foldArt (xs ++ ys) art = foldArt ys (foldArt xs art) := by
  unfold foldArt
  rw [List.foldl_append]

theorem foldArt_incrEvents (aid : Str) : ∀ (cs : List Str) (acc : Str) (art : Artifact),
    art.id = aid → art.html = acc →
    foldArt (incrEvents aid acc cs) art = { art with html := acc ++ sconcat cs } := by
  intro cs
  induction cs with
  | nil =>
    intro acc art hid hh
    show art = _
    cases art
    subst hh
    simp [sconcat]
  | cons c t ih =>
    intro acc art hid hh
    show foldArt (incrEvents aid (acc ++ c) t) (applyEvtArt (.incr aid (acc ++ c)) art) = _
    rw [show applyEvtArt (.incr aid (acc ++ c)) art = { art with html := acc ++ c } from if_pos hid]
    rw [ih (acc ++ c) { art with html := acc ++ c } hid rfl]
    cases art
    simp only [sconcat]
    rw [List.append_assoc]

theorem foldArt_succTrace (aid : Str) (cs : List Str) (art : Artifact)
    (hid : art.id = aid) (hh : art.html = []) :
    foldArt (succTrace aid cs) art
      = { art with html := normalizeHtml (sconcat cs),
                   status := if normalizeHtml (sconcat cs) = [] then .error else .complete } := by
  rw [show succTrace aid cs
      = incrEvents aid [] cs ++ [.fin aid (normalizeHtml (sconcat cs))] from rfl]
  rw [foldArt_append, foldArt_incrEvents aid cs [] art hid hh]
  cases art with
  | mk i sn h st =>
    obtain rfl : i = aid := hid
    show applyEvtArt (GenEvent.fin i (normalizeHtml (sconcat cs)))
        (Artifact.mk i sn ([] ++ sconcat cs) st) = _
    rw [show applyEvtArt (GenEvent.fin i (normalizeHtml (sconcat cs)))
          (Artifact.mk i sn ([] ++ sconcat cs) st)
        = Artifact.mk i sn (normalizeHtml (sconcat cs))
            (if normalizeHtml (sconcat cs) = [] then AStatus.error else AStatus.complete)
      from if_pos rfl]

theorem foldArt_failTrace (aid : Str) (cs : List Str) (art : Artifact)
    (hid : art.id = aid) (hh : art.html = []) :
    foldArt (failTrace aid cs) art = { art with html := sconcat cs } := by
  rw [show failTrace aid cs = incrEvents aid [] cs from rfl,
      foldArt_incrEvents aid cs [] art hid hh]
  cases art
  rfl

/-- **C7.** A failure during one artifact's generation in a batch of 3
never aborts or alters the sibling artifacts' generation. With three
generators addressed to pairwise distinct artifact ids, the middle one
failing mid-stream (its error caught locally, so its trace carries no
final update) and the other two completing with nonempty normalized
html, and with the batch's published updates interleaved arbitrarily
(`evs` is any interleaving of the three traces): after the batch join
the loading flag is false, sessions other than the addressed one are
untouched, and in the addressed session the two surviving artifacts are
`complete` with their normalized html while the failing artifact keeps
its accumulated html and is still `streaming` — it never transitions
past `streaming`. -/
theorem batch_failure_isolation
    (sid a0 a1 a2 : Str) (c0 c1 c2 : List Str)
    (art0 art1 art2 : Artifact)
    (hd01 : a0 ≠ a1) (hd02 : a0 ≠ a2) (hd12 : a1 ≠ a2)
    (hid0 : art0.id = a0) (hid1 : art1.id = a1) (hid2 : art2.id = a2)
    (hh0 : art0.html = []) (hh1 : art1.html = []) (hh2 : art2.html = [])
    (hst1 : art1.status = .streaming)
    (hne0 : normalizeHtml (sconcat c0) ≠ []) (hne2 : normalizeHtml (sconcat c2) ≠ [])
    (u evs : List GenEvent)
    (hu : Interleave (succTrace a0 c0) (failTrace a1 c1) u)
    (hv : Interleave u (succTrace a2 c2) evs)
    (ss : List Session) :
    (runBatch sid evs ⟨ss, true⟩).isLoading = false ∧
    (∀ (i : Nat) (sess : Session), ss[i]? = some sess → sess.id ≠ sid →
      (runBatch sid evs ⟨ss, true⟩).sessions[i]? = some sess) ∧
    (∀ (i : Nat) (sess : Session), ss[i]? = some sess → sess.id = sid →
      sess.artifacts = [art0, art1, art2] →
      (runBatch sid evs ⟨ss, true⟩).sessions[i]? = some { sess with artifacts :=
        [⟨a0, art0.styleName, normalizeHtml (sconcat c0), .complete⟩,
         ⟨a1, art1.styleName, sconcat c1, .streaming⟩,
         ⟨a2, art2.styleName, normalizeHtml (sconcat c2), .complete⟩] }) := by
  have hrun : (runBatch sid evs ⟨ss, true⟩).sessions = runEvents sid evs ss := rfl
  have ht0 := targetOf_succTrace a0 c0
  have ht1 := targetOf_failTrace a1 c1
  have ht2 := targetOf_succTrace a2 c2
  refine ⟨rfl, ?_, ?_⟩
  · intro i sess hi hns
    rw [hrun, runEvents_map, List.getElem?_map, hi]
    simp only [Option.map_some']
    rw [if_neg hns]
  · intro i sess hi hsid harts
    have hf0 : evs.filter (fun e => decide (targetOf e = a0)) = succTrace a0 c0 := by
      have g1 := interleave_filter (fun e => decide (targetOf e = a0)) hu
      rw [filter_target_self a0 _ ht0,
          filter_target_nil a0 a1 (fun hh => hd01 hh.symm) _ ht1] at g1
      have g2 := interleave_filter (fun e => decide (targetOf e = a0)) hv
      rw [interleave_eq_of_right_nil g1 rfl,
          filter_target_nil a0 a2 (fun hh => hd02 hh.symm) _ ht2] at g2
      exact interleave_eq_of_right_nil g2 rfl
    have hf1 : evs.filter (fun e => decide (targetOf e = a1)) = failTrace a1 c1 := by
      have g1 := interleave_filter (fun e => decide (targetOf e = a1)) hu
      rw [filter_target_self a1 _ ht1,
          filter_target_nil a1 a0 hd01 _ ht0] at g1
      have g2 := interleave_filter (fun e => decide (targetOf e = a1)) hv
      rw [interleave_eq_of_left_nil g1 rfl,
          filter_target_nil a1 a2 (fun hh => hd12 hh.symm) _ ht2] at g2
      exact interleave_eq_of_right_nil g2 rfl
    have hf2 : evs.filter (fun e => decide (targetOf e = a2)) = succTrace a2 c2 := by
      have g1 := interleave_filter (fun e => decide (targetOf e = a2)) hu
      rw [filter_target_nil a2 a0 hd02 _ ht0,
          filter_target_nil a2 a1 hd12 _ ht1] at g1
      have g2 := interleave_filter (fun e => decide (targetOf e = a2)) hv
      rw [interleave_eq_of_right_nil g1 rfl,
          filter_target_self a2 _ ht2] at g2
      exact interleave_eq_of_left_nil g2 rfl
    have e0 : foldArt evs art0
        = ⟨a0, art0.styleName, normalizeHtml (sconcat c0), .complete⟩ := by
      rw [foldArt_filter a0 evs art0 hid0, hf0,
          foldArt_succTrace a0 c0 art0 hid0 hh0, if_neg hne0, hid0]
    have e1 : foldArt evs art1 = ⟨a1, art1.styleName, sconcat c1, .streaming⟩ := by
      rw [foldArt_filter a1 evs art1 hid1, hf1,
          foldArt_failTrace a1 c1 art1 hid1 hh1, hid1, hst1]
    have e2 : foldArt evs art2
        = ⟨a2, art2.styleName, normalizeHtml (sconcat c2), .complete⟩ := by
      rw [foldArt_filter a2 evs art2 hid2, hf2,
          foldArt_succTrace a2 c2 art2 hid2 hh2, if_neg hne2, hid2]
    rw [hrun, runEvents_map, List.getElem?_map, hi]
    simp only [Option.map_some']
    rw [if_pos hsid, harts]
    show some { sess with artifacts :=
        [foldArt evs art0, foldArt evs art1, foldArt evs art2] } = _
    rw [e0, e1, e2]

/-- A concrete three-artifact session for the batch witness. -/
def batchSessionW : Session :=
  ⟨strL "s", strL "p", 7,
   [⟨strL "s_0", Json.null, [], .streaming⟩,
    ⟨strL "s_1", Json.null, [], .streaming⟩,
    ⟨strL "s_2", Json.null, [], .streaming⟩]⟩

/-- A concrete interleaving of the three generator traces: generator 0
succeeds with two chunks, generator 1 fails after one chunk, generator 2
succeeds with one chunk. -/
def batchEvsW : List GenEvent :=
  (succTrace (strL "s_0") [strL "<div>", strL "A</div>"]
    ++ failTrace (strL "s_1") [strL "<p>"])
    ++ succTrace (strL "s_2") [strL "<b>B</b>"]

/-- Witness for C7: on the concrete batch above, after the join the flag
is cleared, the failing artifact keeps its accumulated html and is still
streaming, and the two survivors are complete. -/
theorem batch_failure_isolation_witness :
    (runBatch (strL "s") batchEvsW ⟨[batchSessionW], true⟩).isLoading = false ∧
    (runBatch (strL "s") batchEvsW ⟨[batchSessionW], true⟩).sessions[0]?
      = some { batchSessionW with artifacts :=
          [⟨strL "s_0", Json.null, strL "<div>A</div>", .complete⟩,
           ⟨strL "s_1", Json.null, strL "<p>", .streaming⟩,
           ⟨strL "s_2", Json.null, strL "<b>B</b>", .complete⟩] } := by
  have h := batch_failure_isolation (strL "s") (strL "s_0") (strL "s_1") (strL "s_2")
      [strL "<div>", strL "A</div>"] [strL "<p>"] [strL "<b>B</b>"]
      ⟨strL "s_0", Json.null, [], .streaming⟩
      ⟨strL "s_1", Json.null, [], .streaming⟩
      ⟨strL "s_2", Json.null, [], .streaming⟩
      (by decide) (by decide) (by decide) rfl rfl rfl rfl rfl rfl rfl
      (by decide) (by decide)
      _ _ (interleave_append _ _) (interleave_append _ _) [batchSessionW]
  refine ⟨h.1, ?_⟩
  have h3 := h.2.2 0 batchSessionW rfl rfl rfl
  rw [show (runBatch (strL "s") batchEvsW ⟨[batchSessionW], true⟩).sessions[0]?
      = (runBatch (strL "s")
          ((succTrace (strL "s_0") [strL "<div>", strL "A</div>"]
            ++ failTrace (strL "s_1") [strL "<p>"])
            ++ succTrace (strL "s_2") [strL "<b>B</b>"])
          ⟨[batchSessionW], true⟩).sessions[0]? from rfl]
  rw [h3]
  decide

/-! ## Navigation state (`nextItem`, `prevItem`, session and vault handlers)

The navigation-relevant part of the component state: the session history,
`currentSessionIndex` (a JavaScript number, `-1` before any session
exists), `focusedArtifactIndex` (`null` or an index), and the saved
vault. The handlers below embed the corresponding source functions; the
asynchronous parts of `handleSendMessage` are covered separately above,
here only its synchronous session-creation prefix (lines 327-343)
matters. -/

structure NavState where
  sessions : List Session
  currentSessionIndex : Int
  focusedArtifactIndex : Option Nat
  savedArtifacts : List SavedArtifact
deriving DecidableEq

/-- `sessions[currentSessionIndex]` with JavaScript semantics: a negative
or out-of-range index reads `undefined`. -/
def getSession (st : NavState) : Option Session :=
  if st.currentSessionIndex < 0 then none
  else st.sessions[st.currentSessionIndex.toNat]?

/-- `currentSession?.artifacts.length || 0` (source line 489). -/
def currentArtsLen (st : NavState) : Nat :=
  match getSession st with
  | none => 0
  | some sess => sess.artifacts.length

/-- The three placeholder artifacts created by `handleSendMessage`
(source lines 327-332), with ids `` `${sessionId}_${i}` ``. -/
def placeholderArtifacts (sessionId : Str) : List Artifact :=
  [⟨sessionId ++ strL "_0", .str (strL "Designing..."), [], .streaming⟩,
   ⟨sessionId ++ strL "_1", .str (strL "Designing..."), [], .streaming⟩,
   ⟨sessionId ++ strL "_2", .str (strL "Designing..."), [], .streaming⟩]

/-- The synchronous state updates of `handleSendMessage` (source lines
334-343): append the new session, point `currentSessionIndex` at it
(the `sessions.length` read from the render closure equals the
pre-append length), clear the focus. -/
def handleSendMessageSync (sessionId prompt : Str) (now : Nat) (st : NavState) : NavState :=
  { st with
    sessions := st.sessions ++ [⟨sessionId, prompt, now, placeholderArtifacts sessionId⟩],
    currentSessionIndex := (st.sessions.length : Int),
    focusedArtifactIndex := none }

/-- `handleRestoreFromVault` (source lines 289-304): append a new
one-artifact session whose artifact is the saved snapshot under a fresh
id, point `currentSessionIndex` at it (`next.length - 1`), focus index
0. The two `generateId()` results are passed in as `newSessionId` and
`newArtifactId`. -/
def handleRestoreFromVault (newSessionId newArtifactId : Str) (now : Nat)
    (saved : SavedArtifact) (st : NavState) : NavState :=
  { st with
    sessions := st.sessions
      ++ [⟨newSessionId, saved.prompt, now,
           [⟨newArtifactId, saved.styleName, saved.html, saved.status⟩]⟩],
    currentSessionIndex := (st.sessions.length : Int),
    focusedArtifactIndex := some 0 }

/-- `handleGoHome` (source lines 306-313): reset history, index and
focus. -/
def handleGoHome (st : NavState) : NavState :=
  { st with sessions := [], currentSessionIndex := -1, focusedArtifactIndex := none }

/-- `handleSaveArtifact` (source lines 269-283): no-op without a current
session or focus; no-op when the focused artifact's id is already in the
vault; otherwise prepend the snapshot. (An out-of-range focus index,
which the source would crash on when reading `artifact.id`, is modelled
as a no-op; the reachability theorems below show a guarded focus never
goes out of range.) -/
def handleSaveArtifact (now : Nat) (st : NavState) : NavState :=
  match getSession st, st.focusedArtifactIndex with
  | some cs, some j =>
    match cs.artifacts[j]? with
    | some artifact =>
      if st.savedArtifacts.any (fun s => decide (s.id = artifact.id)) then st
      else { st with savedArtifacts :=
        ⟨artifact.id, artifact.styleName, artifact.html, artifact.status,
         cs.prompt, now⟩ :: st.savedArtifacts }
    | none => st
  | _, _ => st

/-- `handleRemoveFromVault` (source lines 285-287). -/
def handleRemoveFromVault (aid : Str) (st : NavState) : NavState :=
  { st with savedArtifacts := st.savedArtifacts.filter (fun s => ! decide (s.id = aid)) }

/-- `setFocusedArtifactIndex(aIndex)` from an artifact card click
(source line 665). -/
def setFocus (i : Nat) (st : NavState) : NavState :=
  { st with focusedArtifactIndex := some i }

/-- `setFocusedArtifactIndex(null)` from the Grid View button (source
line 703). -/
def clearFocus (st : NavState) : NavState :=
  { st with focusedArtifactIndex := none }

/-- `nextItem` (source lines 456-462), with its hardcoded `< 2` bound. -/
def nextItem (st : NavState) : NavState :=
  match st.focusedArtifactIndex with
  | some j => if j < 2 then { st with focusedArtifactIndex := some (j + 1) } else st
  | none =>
    if st.currentSessionIndex < (st.sessions.length : Int) - 1 then
      { st with currentSessionIndex := st.currentSessionIndex + 1 }
    else st

/-- `prevItem` (source lines 464-470). -/
def prevItem (st : NavState) : NavState :=
  match st.focusedArtifactIndex with
  | some j => if 0 < j then { st with focusedArtifactIndex := some (j - 1) } else st
  | none =>
    if 0 < st.currentSessionIndex then
      { st with currentSessionIndex := st.currentSessionIndex - 1 }
    else st

/-- `canGoForward` (source lines 487-493, the navigation-state part:
the additional `hasStarted && view === main && !isFullscreen` rendering
condition only removes further states, so proving the invariant without
it is stronger). -/
def canGoForward (st : NavState) : Bool :=
  match st.focusedArtifactIndex with
  | some j => decide ((j : Int) < (currentArtsLen st : Int) - 1)
  | none => decide (st.currentSessionIndex < (st.sessions.length : Int) - 1)

/-- `canGoBack` (source lines 487-493). -/
def canGoBack (st : NavState) : Bool :=
  match st.focusedArtifactIndex with
  | some j => decide (0 < j)
  | none => decide (0 < st.currentSessionIndex)

/-- One navigation operation. With `g = false` the operations are the
raw handler functions, invocable in any state; with `g = true` the
`nextItem` / `prevItem` handlers require their rendering guards
(`canGoForward` / `canGoBack`, the conditions under which the source
renders the buttons wired to them, lines 676-685) and a focus click
requires a rendered card of the current session (an index below its
artifact count). -/
inductive Step (g : Bool) : NavState → NavState → Prop where
  | send (st : NavState) (sessionId prompt : Str) (now : Nat) :
      Step g st (handleSendMessageSync sessionId prompt now st)
  | restore (st : NavState) (newSessionId newArtifactId : Str) (now : Nat)
      (saved : SavedArtifact) :
      Step g st (handleRestoreFromVault newSessionId newArtifactId now saved st)
  | home (st : NavState) : Step g st (handleGoHome st)
  | save (st : NavState) (now : Nat) : Step g st (handleSaveArtifact now st)
  | remove (st : NavState) (aid : Str) : Step g st (handleRemoveFromVault aid st)
  | focus (st : NavState) (i : Nat) (h : g = true → i < currentArtsLen st) :
      Step g st (setFocus i st)
  | unfocus (st : NavState) : Step g st (clearFocus st)
  | next (st : NavState) (h : g = true → canGoForward st = true) :
      Step g st (nextItem st)
  | prev (st : NavState) (h : g = true → canGoBack st = true) :
      Step g st (prevItem st)

/-- States reachable from the initial component state (`sessions = []`,
`currentSessionIndex = -1`, no focus; the vault starts at `v0`, covering
the snapshot loaded from localStorage). -/
def Reachable (g : Bool) (v0 : List SavedArtifact) (st : NavState) : Prop :=
  Relation.ReflTransGen (Step g) ⟨[], -1, none, v0⟩ st

/-- The focus invariant: a set `focusedArtifactIndex` is strictly below
the current session's artifact count. -/
def NavInv (st : NavState) : Prop :=
  match st.focusedArtifactIndex with
  | none => True
  | some j => j < currentArtsLen st

theorem navInv_of_focus (st : NavState)
    (h : ∀ j, st.focusedArtifactIndex = some j → j < currentArtsLen st) : NavInv st := by
  unfold NavInv
  split
  · exact trivial
  · rename_i j heq
    exact h j heq

theorem navInv_elim (st : NavState) (hinv : NavInv st) :
    ∀ j, st.focusedArtifactIndex = some j → j < currentArtsLen st := by
  intro j hj
  unfold NavInv at hinv
  rw [hj] at hinv
  exact hinv

theorem navInv_congr (st st' : NavState)
    (h1 : st'.sessions = st.sessions)
    (h2 : st'.currentSessionIndex = st.currentSessionIndex)
    (h3 : st'.focusedArtifactIndex = st.focusedArtifactIndex)
    (hinv : NavInv st) : NavInv st' := by
  refine navInv_of_focus st' ?_
  intro j hj
  have hlen : currentArtsLen st' = currentArtsLen st := by
    unfold currentArtsLen getSession
    rw [h1, h2]
  rw [hlen]
  exact navInv_elim st hinv j (by rw [← h3]; exact hj)

theorem saveArtifact_fields (now : Nat) (st : NavState) :
    (handleSaveArtifact now st).sessions = st.sessions ∧
    (handleSaveArtifact now st).currentSessionIndex = st.currentSessionIndex ∧
    (handleSaveArtifact now st).focusedArtifactIndex = st.focusedArtifactIndex := by
  unfold handleSaveArtifact
  split
  · split
    · split
      · exact ⟨rfl, rfl, rfl⟩
      · exact ⟨rfl, rfl, rfl⟩
    · exact ⟨rfl, rfl, rfl⟩
  · exact ⟨rfl, rfl, rfl⟩

theorem getSession_restore (newSessionId newArtifactId : Str) (now : Nat)
    (saved : SavedArtifact) (st : NavState) :
    getSession (handleRestoreFromVault newSessionId newArtifactId now saved st)
      = some ⟨newSessionId, saved.prompt, now,
              [⟨newArtifactId, saved.styleName, saved.html, saved.status⟩]⟩ := by
  show (if (st.sessions.length : Int) < 0 then (none : Option Session)
        else (st.sessions ++ [⟨newSessionId, saved.prompt, now,
               [⟨newArtifactId, saved.styleName, saved.html,
                 saved.status⟩]⟩])[((st.sessions.length : Int)).toNat]?) = _
  rw [if_neg (by omega), Int.toNat_natCast, List.getElem?_concat_length]

theorem nextItem_none (st : NavState) (hf : st.focusedArtifactIndex = none) :
    nextItem st = if st.currentSessionIndex < (st.sessions.length : Int) - 1 then
      { st with currentSessionIndex := st.currentSessionIndex + 1 } else st := by
  unfold nextItem
  rw [hf]

theorem nextItem_some (st : NavState) (j : Nat) (hf : st.focusedArtifactIndex = some j) :
    nextItem st = if j < 2 then { st with focusedArtifactIndex := some (j + 1) } else st := by
  unfold nextItem
  rw [hf]

theorem prevItem_none (st : NavState) (hf : st.focusedArtifactIndex = none) :
    prevItem st = if 0 < st.currentSessionIndex then
      { st with currentSessionIndex := st.currentSessionIndex - 1 } else st := by
  unfold prevItem
  rw [hf]

theorem prevItem_some (st : NavState) (j : Nat) (hf : st.focusedArtifactIndex = some j) :
    prevItem st = if 0 < j then { st with focusedArtifactIndex := some (j - 1) } else st := by
  unfold prevItem
  rw [hf]

theorem navInv_step (st st' : NavState) (hs : Step true st st') (hinv : NavInv st) :
    NavInv st' := by
  cases hs with
  | send sessionId prompt now => exact True.intro
  | restore newSessionId newArtifactId now saved =>
    show 0 < currentArtsLen (handleRestoreFromVault newSessionId newArtifactId now saved st)
    unfold currentArtsLen
    rw [getSession_restore]
    exact Nat.one_pos
  | home => exact True.intro
  | save now =>
    obtain ⟨h1, h2, h3⟩ := saveArtifact_fields now st
    exact navInv_congr st _ h1 h2 h3 hinv
  | remove aid => exact navInv_congr st _ rfl rfl rfl hinv
  | focus i h => exact h rfl
  | unfocus => exact True.intro
  | next h =>
    cases hf : st.focusedArtifactIndex with
    | none =>
      rw [nextItem_none st hf]
      split
      · refine navInv_of_focus _ ?_
        intro j hj
        have hj2 : st.focusedArtifactIndex = some j := hj
        rw [hf] at hj2
        exact Option.noConfusion hj2
      · exact hinv
    | some j =>
      have hlt : (j : Int) < (currentArtsLen st : Int) - 1 := by
        have hcgf := h rfl
        unfold canGoForward at hcgf
        rw [hf] at hcgf
        exact of_decide_eq_true hcgf
      rw [nextItem_some st j hf]
      split
      · show j + 1 < currentArtsLen st
        omega
      · exact hinv
  | prev h =>
    cases hf : st.focusedArtifactIndex with
    | none =>
      rw [prevItem_none st hf]
      split
      · refine navInv_of_focus _ ?_
        intro j hj
        have hj2 : st.focusedArtifactIndex = some j := hj
        rw [hf] at hj2
        exact Option.noConfusion hj2
      · exact hinv
    | some j =>
      have hjl : j < currentArtsLen st := navInv_elim st hinv j hf
      rw [prevItem_some st j hf]
      split
      · show j - 1 < currentArtsLen st
        omega
      · exact hinv

/-- **C4** (counterexample). With the operations taken as the raw handler
functions (guard flag `false`, i.e. without the `canGoForward` rendering
guard of the Next button), the focus bound is violated in a reachable
state: restoring a saved artifact from the vault yields a one-artifact
session with focus index 0, and `nextItem` — whose bound is the
hardcoded `focusedArtifactIndex < 2`, not the current session's artifact
count — then moves the focus to index 1, which is not below the artifact
count 1. In particular `advance()` with an artifact focused is not a
no-op even though no next artifact exists in the current session. -/
theorem nav_focus_counterexample :
    ∃ st : NavState, Reachable false [] st ∧ ¬ NavInv st := by
  refine ⟨nextItem (handleRestoreFromVault (strL "s") (strL "a") 0
      ⟨strL "a0", Json.null, strL "<x>", .complete, strL "p", 0⟩ ⟨[], -1, none, []⟩),
    ?_, ?_⟩
  · exact Relation.ReflTransGen.head (Step.restore _ _ _ _ _)
      (Relation.ReflTransGen.head (Step.next _ (fun hh => absurd hh (by decide)))
        Relation.ReflTransGen.refl)
  · intro hinv
    exact absurd (navInv_elim _ hinv 1 rfl) (by decide)

/-- **C4** (amended). In every state reachable through the navigation
operations as the UI exposes them — `nextItem` / `prevItem` only behind
their `canGoForward` / `canGoBack` rendering guards, a focus click only
on a rendered card of the current session — a set `focusedArtifactIndex`
is strictly below the current session's artifact count; consequently the
guarded advance with an artifact focused moves to the next artifact
index only when that artifact exists in the current session. -/
theorem nav_focus_invariant (v0 : List SavedArtifact) (st : NavState)
    (h : Reachable true v0 st) : NavInv st := by
  unfold Reachable at h
  induction h with
  | refl => exact True.intro
  | tail hab hbc ih => exact navInv_step _ _ hbc ih

/-- Witness for C4: a concrete guarded run — create a session (3
placeholder artifacts), focus card 0, advance via the guarded Next — and
the focus invariant holds in the resulting state. -/
theorem nav_focus_invariant_witness :
    NavInv (nextItem (setFocus 0
      (handleSendMessageSync (strL "s") (strL "p") 3 ⟨[], -1, none, []⟩))) :=
  nav_focus_invariant [] _
    (Relation.ReflTransGen.head (Step.send _ _ _ _)
      (Relation.ReflTransGen.head (Step.focus _ 0 (fun _ => by decide))
        (Relation.ReflTransGen.head (Step.next _ (fun _ => by decide))
          Relation.ReflTransGen.refl)))

theorem saveArtifact_dup_noop (now : Nat) (st : NavState) (cs : Session) (j : Nat)
    (artifact : Artifact)
    (hgs : getSession st = some cs) (hf : st.focusedArtifactIndex = some j)
    (hart : cs.artifacts[j]? = some artifact)
    (hany : st.savedArtifacts.any (fun s => decide (s.id = artifact.id)) = true) :
    handleSaveArtifact now st = st := by
  unfold handleSaveArtifact
  split
  · rename_i cs' j' heq1 heq2
    rw [hgs] at heq1
    rw [hf] at heq2
    obtain rfl : cs = cs' := Option.some.inj heq1
    obtain rfl : j = j' := Option.some.inj heq2
    simp [hart, hany]
  · rfl

theorem saveArtifact_prepend (now : Nat) (st : NavState) (cs : Session) (j : Nat)
    (artifact : Artifact)
    (hgs : getSession st = some cs) (hf : st.focusedArtifactIndex = some j)
    (hart : cs.artifacts[j]? = some artifact)
    (hany : st.savedArtifacts.any (fun s => decide (s.id = artifact.id)) = false) :
    (handleSaveArtifact now st).savedArtifacts
      = ⟨artifact.id, artifact.styleName, artifact.html, artifact.status,
         cs.prompt, now⟩ :: st.savedArtifacts := by
  unfold handleSaveArtifact
  split
  · rename_i cs' j' heq1 heq2
    rw [hgs] at heq1
    rw [hf] at heq2
    obtain rfl : cs = cs' := Option.some.inj heq1
    obtain rfl : j = j' := Option.some.inj heq2
    simp [hart, hany]
  · rename_i hno
    exact absurd hgs (fun hh => hno cs j hh hf)

theorem saveArtifact_nodup (now : Nat) (st : NavState)
    (hnd : (st.savedArtifacts.map (fun s => s.id)).Nodup) :
    ((handleSaveArtifact now st).savedArtifacts.map (fun s => s.id)).Nodup := by
  unfold handleSaveArtifact
  split
  · rename_i cs' j' heq1 heq2
    split
    · rename_i artifact heq3
      split
      · exact hnd
      · rename_i hany
        rw [List.map_cons]
        refine List.nodup_cons.mpr ⟨?_, hnd⟩
        intro hmem
        rcases List.mem_map.mp hmem with ⟨s, hsmem, hsid⟩
        exact hany (List.any_eq_true.mpr ⟨s, hsmem, decide_eq_true hsid⟩)
    · exact hnd
  · exact hnd

theorem removeFromVault_nodup (aid : Str) (st : NavState)
    (hnd : (st.savedArtifacts.map (fun s => s.id)).Nodup) :
    ((handleRemoveFromVault aid st).savedArtifacts.map (fun s => s.id)).Nodup := by
  refine List.Nodup.sublist ?_ hnd
  exact (List.filter_sublist _).map _

theorem nextItem_saved (st : NavState) :
    (nextItem st).savedArtifacts = st.savedArtifacts := by
  unfold nextItem
  split
  · split <;> rfl
  · split <;> rfl

theorem prevItem_saved (st : NavState) :
    (prevItem st).savedArtifacts = st.savedArtifacts := by
  unfold prevItem
  split
  · split <;> rfl
  · split <;> rfl

theorem step_vault_nodup (g : Bool) (st st' : NavState) (hs : Step g st st')
    (hnd : (st.savedArtifacts.map (fun s => s.id)).Nodup) :
    (st'.savedArtifacts.map (fun s => s.id)).Nodup := by
  cases hs with
  | send sessionId prompt now => exact hnd
  | restore newSessionId newArtifactId now saved => exact hnd
  | home => exact hnd
  | save now => exact saveArtifact_nodup now st hnd
  | remove aid => exact removeFromVault_nodup aid st hnd
  | focus i h => exact hnd
  | unfocus => exact hnd
  | next h =>
    rw [nextItem_saved st]
    exact hnd
  | prev h =>
    rw [prevItem_saved st]
    exact hnd

/-- **C10.** The saved-artifact vault never contains two entries with the
same id: saving when the focused artifact's id is already in the vault is
a no-op; otherwise exactly one snapshot is prepended; along every
operation sequence (guarded or not) distinctness of the vault's ids is
preserved from the initial vault; and restoring from the vault installs
the snapshot under a fresh artifact id, so a save from the restored state
prepends a distinct new entry. -/
theorem vault_uniqueness :
    (∀ (st : NavState) (now : Nat) (cs : Session) (j : Nat) (artifact : Artifact),
      getSession st = some cs → st.focusedArtifactIndex = some j →
      cs.artifacts[j]? = some artifact →
      st.savedArtifacts.any (fun s => decide (s.id = artifact.id)) = true →
      handleSaveArtifact now st = st) ∧
    (∀ (st : NavState) (now : Nat) (cs : Session) (j : Nat) (artifact : Artifact),
      getSession st = some cs → st.focusedArtifactIndex = some j →
      cs.artifacts[j]? = some artifact →
      st.savedArtifacts.any (fun s => decide (s.id = artifact.id)) = false →
      (handleSaveArtifact now st).savedArtifacts
        = ⟨artifact.id, artifact.styleName, artifact.html, artifact.status,
           cs.prompt, now⟩ :: st.savedArtifacts) ∧
    (∀ (g : Bool) (v0 : List SavedArtifact) (st : NavState),
      (v0.map (fun s => s.id)).Nodup → Reachable g v0 st →
      (st.savedArtifacts.map (fun s => s.id)).Nodup) ∧
    (∀ (st : NavState) (now nowR : Nat) (newSessionId newArtifactId : Str)
       (saved : SavedArtifact),
      st.savedArtifacts.any (fun s => decide (s.id = newArtifactId)) = false →
      (handleSaveArtifact now
          (handleRestoreFromVault newSessionId newArtifactId nowR saved st)).savedArtifacts
        = ⟨newArtifactId, saved.styleName, saved.html, saved.status,
           saved.prompt, now⟩ :: st.savedArtifacts) := by
  refine ⟨?_, ?_, ?_, ?_⟩
  · intro st now cs j artifact hgs hf hart hany
    exact saveArtifact_dup_noop now st cs j artifact hgs hf hart hany
  · intro st now cs j artifact hgs hf hart hany
    exact saveArtifact_prepend now st cs j artifact hgs hf hart hany
  · intro g v0 st h0 hr
    unfold Reachable at hr
    induction hr with
    | refl => exact h0
    | tail hab hbc ih => exact step_vault_nodup g _ _ hbc ih
  · intro st now nowR newSessionId newArtifactId saved hfresh
    exact saveArtifact_prepend now
      (handleRestoreFromVault newSessionId newArtifactId nowR saved st)
      ⟨newSessionId, saved.prompt, nowR,
       [⟨newArtifactId, saved.styleName, saved.html, saved.status⟩]⟩
      0 ⟨newArtifactId, saved.styleName, saved.html, saved.status⟩
      (getSession_restore newSessionId newArtifactId nowR saved st) rfl rfl hfresh

/-- A concrete one-artifact session for the vault witness. -/
def vaultSessionW : Session :=
  ⟨strL "s", strL "p", 2, [⟨strL "a", Json.null, strL "<x>", .complete⟩]⟩

/-- A concrete vault entry with the same id as the session's artifact. -/
def vaultSavedW : SavedArtifact :=
  ⟨strL "a", Json.null, strL "<x>", .complete, strL "q", 1⟩

/-- A concrete state whose vault already holds the focused artifact. -/
def vaultStateW : NavState := ⟨[vaultSessionW], 0, some 0, [vaultSavedW]⟩

/-- The same state with an empty vault. -/
def vaultStateEmptyW : NavState := ⟨[vaultSessionW], 0, some 0, []⟩

/-- Witness for C10: a second save of an already-saved artifact is a
no-op; a first save prepends the snapshot; the vault ids of a concrete
operation run stay distinct; and restore-then-save under a fresh id
prepends a distinct entry. -/
theorem vault_uniqueness_witness :
    handleSaveArtifact 5 vaultStateW = vaultStateW ∧
    (handleSaveArtifact 5 vaultStateEmptyW).savedArtifacts
      = [⟨strL "a", Json.null, strL "<x>", .complete, strL "p", 5⟩] ∧
    ((handleSaveArtifact 5 (setFocus 0
        (handleSendMessageSync (strL "s") (strL "p") 0
          ⟨[], -1, none, []⟩))).savedArtifacts.map (fun s => s.id)).Nodup ∧
    (handleSaveArtifact 7
        (handleRestoreFromVault (strL "n") (strL "f") 9 vaultSavedW vaultStateW)).savedArtifacts
      = ⟨strL "f", Json.null, strL "<x>", .complete, strL "q", 7⟩ :: [vaultSavedW] := by
  refine ⟨?_, ?_, ?_, ?_⟩
  · exact vault_uniqueness.1 vaultStateW 5 vaultSessionW 0
      ⟨strL "a", Json.null, strL "<x>", .complete⟩ (by decide) rfl rfl (by decide)
  · exact vault_uniqueness.2.1 vaultStateEmptyW 5 vaultSessionW 0
      ⟨strL "a", Json.null, strL "<x>", .complete⟩ (by decide) rfl rfl (by decide)
  · exact vault_uniqueness.2.2.1 false [] _ (by decide)
      (Relation.ReflTransGen.head (Step.send _ _ _ _)
        (Relation.ReflTransGen.head
          (Step.focus _ 0 (fun hh => absurd hh (by decide)))
          (Relation.ReflTransGen.head (Step.save _ 5) Relation.ReflTransGen.refl)))
  · exact vault_uniqueness.2.2.2 vaultStateW 7 9 (strL "n") (strL "f") vaultSavedW (by decide)
